import Mathlib

/-!
Shallow embedding of the FDSampleRush core: the BinaryWord bitset class
(src/utils/binary_word.py), the functional-dependency utilities
(src/func_dependencies/utils.py) and the normal-form predicates
(src/normalization/test_normal_form.py), together with proofs and
refutations of the specification claims.

Python integers are arbitrary-precision and signed; nonnegative values are
modelled as Nat (whose bitwise operators agree with Python on nonnegative
operands) and the constructor argument, which may be negative, as Int.
Functions that can raise return Option.  Python sets are modelled as
Finsets: every set used by the code holds words or FD pairs of one common
length, where structural equality coincides with the eq/hash pair of the
source classes.
-/

set_option maxRecDepth 10000

namespace FDSampleRush

/-- Python class BinaryWord: an n-bit word, a length plus an integer value. -/
structure BinaryWord where
  length : Nat
  value : Nat
deriving DecidableEq

/-- The constructor body is value AND ((1 shl length) - 1).  On signed
arbitrary-precision integers that mask is exactly reduction mod 2 ^ length,
including for negative and for out-of-range nonnegative input. -/
def BinaryWord.init (length : Nat) (value : Int) : BinaryWord :=
  ⟨length, (value % ((2 : Int) ^ length)).toNat⟩

/-- set_bit guards the bit position and the bit value and raises ValueError
(none) when either is out of range.  newValue is
(value AND NOT (1 shl position)) OR (bit shl position): forcing the bit to 1
with an OR and subtracting 2 ^ position again when bit = 0 computes the same
number on nonnegative values. -/
def BinaryWord.set_bit (w : BinaryWord) (position bit : Nat) : Option BinaryWord :=
  if position < w.length then
    if bit = 0 ∨ bit = 1 then
      some (BinaryWord.init w.length
        (((w.value ||| 2 ^ position) - (1 - bit) * 2 ^ position : Nat) : Int))
    else none
  else none

/-- flip_bit guards the position and XORs 1 shl position into the value. -/
def BinaryWord.flip_bit (w : BinaryWord) (position : Nat) : Option BinaryWord :=
  if position < w.length then
    some (BinaryWord.init w.length ((w.value ^^^ 2 ^ position : Nat) : Int))
  else none

/-- ones: BinaryWord(length, 2 ** length - 1). -/
def BinaryWord.ones (w : BinaryWord) : BinaryWord :=
  BinaryWord.init w.length ((2 : Int) ^ w.length - 1)

/-- zeroes: BinaryWord(length, 0). -/
def BinaryWord.zeroes (w : BinaryWord) : BinaryWord :=
  BinaryWord.init w.length 0

/-- Python and: BinaryWord(self.length, self.value AND other.value). -/
def BinaryWord.and (a b : BinaryWord) : BinaryWord :=
  BinaryWord.init a.length ((a.value &&& b.value : Nat) : Int)

/-- Python or: BinaryWord(self.length, self.value OR other.value). -/
def BinaryWord.or (a b : BinaryWord) : BinaryWord :=
  BinaryWord.init a.length ((a.value ||| b.value : Nat) : Int)

/-- Python xor: BinaryWord(self.length, self.value XOR other.value). -/
def BinaryWord.xor (a b : BinaryWord) : BinaryWord :=
  BinaryWord.init a.length ((a.value ^^^ b.value : Nat) : Int)

/-- Python invert: BinaryWord(self.length, NOT value AND mask); on a
nonnegative value, NOT value = -value - 1 and the mask makes this
(2 ^ length - 1 - value) mod 2 ^ length, which is what the constructor
computes from the integer 2 ^ length - 1 - value. -/
def BinaryWord.invert (w : BinaryWord) : BinaryWord :=
  BinaryWord.init w.length ((2 : Int) ^ w.length - 1 - (w.value : Int))

/-- Python eq on BinaryWord compares the values only; the length is ignored. -/
def BinaryWord.beq (a b : BinaryWord) : Bool :=
  a.value == b.value

/-- BinaryWord defines no getitem method, so subscripting a BinaryWord in
Python raises TypeError regardless of the index; modelled as always none. -/
def BinaryWord.getitem (_w : BinaryWord) (_i : Nat) : Option Nat :=
  none

/-- A functional dependency: an ordered pair (lhs, rhs) of BinaryWords.
The source class FunctionalDependency compares and hashes by the pair of
words, so it is the plain pair. -/
abbrev FD := BinaryWord × BinaryWord

/-- utils.is_subset_of: (left AND right) == left, values compared. -/
def is_subset_of (left_attributes right_attributes : BinaryWord) : Bool :=
  (BinaryWord.and left_attributes right_attributes).beq left_attributes

/-- utils.is_proper_subset_of: subset and value strictly smaller. -/
def is_proper_subset_of (left_attributes right_attributes : BinaryWord) : Bool :=
  is_subset_of left_attributes right_attributes &&
    decide (left_attributes.value < right_attributes.value)

/-- utils.non_trivial: drop the FDs whose rhs is a subset of their lhs. -/
def non_trivial (fds : List FD) : List FD :=
  fds.filter (fun fd => !(is_subset_of fd.2 fd.1))

/-- One inner update of attribute_closure for one list entry: None entries
and FDs in the exclude set are skipped; an FD whose lhs is contained in the
running closure contributes its rhs by OR. -/
def closure_step (exclude : Finset FD) (acc : BinaryWord) (ofd : Option FD) : BinaryWord :=
  match ofd with
  | none => acc
  | some (left_side, right_side) =>
    if (left_side, right_side) ∈ exclude then acc
    else if (left_side.and acc).beq left_side then acc.or right_side else acc

/-- One full scan of the FD list: one iteration of the while loop. -/
def closure_pass (fds : List (Option FD)) (exclude : Finset FD) (w : BinaryWord) : BinaryWord :=
  fds.foldl (closure_step exclude) w

/-- The while loop of attribute_closure: rescan until a scan changes
nothing.  has_changed in the source records whether some update changed the
value during the scan, which holds exactly when the value after the scan
differs from the value before it, because updates only OR bits in (modulo
the constructor mask, which can shrink the value at most once, on a start
value outside the mask range). -/
def closure_loop (fds : List (Option FD)) (exclude : Finset FD) : Nat → BinaryWord → BinaryWord
  | 0, w => w
  | fuel + 1, w =>
    let w2 := closure_pass fds exclude w
    if w2.value = w.value then w else closure_loop fds exclude fuel w2

/-- utils.attribute_closure.  Python scans until stable; each changing scan
strictly increases the value, which stays below 2 ^ length from the first
update on, so 2 ^ length + 2 scans always reach the stable point and the
fuel is only a bound on the iteration count, never a cut-off. -/
def attribute_closure (attribute_set : BinaryWord) (fds : List (Option FD))
    (exclude : Finset FD) : BinaryWord :=
  closure_loop fds exclude (2 ^ attribute_set.length + 2) attribute_set

/-- utils.is_superkey: the closure equals BinaryWord(len, 2 ** len - 1). -/
def is_superkey (attribute_set : BinaryWord) (fds : List FD) : Bool :=
  (attribute_closure attribute_set (fds.map some) ∅).beq
    (BinaryWord.init attribute_set.length ((2 : Int) ^ attribute_set.length - 1))

/-- OR of 2 ^ i over a finite set of bit positions. -/
def orPow (s : Finset Nat) : Nat :=
  s.fold (· ||| ·) 0 (fun i => 2 ^ i)

/-- utils.attribute_combinations builds the word of an index combination by
repeated set_bit(index, 1) from BinaryWord(n); set_bit with bit 1 ORs
2 ^ index into the value, every index is below n so the guard never raises
and the constructor mask never truncates, giving the value orPow s. -/
def comb_word (n : Nat) (s : Finset Nat) : BinaryWord :=
  ⟨n, orPow s⟩

/-- utils.attribute_combinations: the words of all c-element subsets of the
n bit positions, dropping every word that contains a member of exclude. -/
def attribute_combinations (n c : Nat) (exclude : Finset BinaryWord) : Finset BinaryWord :=
  (((Finset.range n).powersetCard c).image (comb_word n)).filter
    (fun attributes => ∀ word ∈ exclude, is_subset_of word attributes = false)

/-- One size step of candidate_keys: every generated subset of size c whose
closure is all ones joins the candidate set. -/
def ck_step (num_attrs : Nat) (nt : List FD) (candidates : Finset BinaryWord)
    (c : Nat) : Finset BinaryWord :=
  candidates ∪ (attribute_combinations num_attrs c candidates).filter
    (fun attr_set => is_superkey attr_set nt)

/-- The size loop of candidate_keys, run for sizes 0..i-1. -/
def ck_loop (num_attrs : Nat) (nt : List FD) : Nat → Finset BinaryWord
  | 0 => ∅
  | i + 1 => ck_step num_attrs nt (ck_loop num_attrs nt i) i

/-- utils.candidate_keys.  Both branches read fds[0], so an empty list
raises IndexError (none).  With no non-trivial FD the result is the single
all-ones word; otherwise sizes 0..num_attrs-1 are scanned, pruning subsets
that contain an already-found candidate. -/
def candidate_keys (fds : List FD) : Option (Finset BinaryWord) :=
  match fds.head? with
  | none => none
  | some fd0 =>
    let nt := non_trivial fds
    if nt.length = 0 then some {fd0.1.ones}
    else some (ck_loop fd0.1.length nt fd0.1.length)

/-- utils.drop_dependencies: for each FD the source loops i over
range(len(right)) and reads right[i]; BinaryWord has no getitem, so the
first read raises TypeError, modelled by getitem = none propagating
through the fold. -/
def drop_dependencies (fds : List FD) : Option (List FD) :=
  fds.foldlM
    (fun new_fds fd =>
      (List.range fd.2.length).foldlM
        (fun acc i =>
          match fd.2.getitem i with
          | none => none
          | some b =>
            some (if b = 1 then
              acc ++ [(fd.1, BinaryWord.init fd.2.length ((2 ^ i : Nat) : Int))]
            else acc))
        new_fds)
    []

/-- The index loop of minimize_right: entry i is overwritten with None when
its rhs is already implied by the rest of the working list (the closure of
its lhs excluding the FD itself, by value).  The first argument counts the
remaining iterations of the Python for loop (the caller passes the list
length, so the loop visits exactly the indices 0..length-1).  Entry i is
never None when iteration i reads it, because only iteration i writes it;
the none branch is required for totality only. -/
def minimize_right_loop : Nat → List (Option FD) → Nat → List (Option FD)
  | 0, new_fds, _ => new_fds
  | fuel + 1, new_fds, i =>
    if h : i < new_fds.length then
      match new_fds.get ⟨i, h⟩ with
      | none => minimize_right_loop fuel new_fds (i + 1)
      | some fd =>
        if is_subset_of fd.2 (attribute_closure fd.1 new_fds {fd}) then
          minimize_right_loop fuel (new_fds.set i none) (i + 1)
        else
          minimize_right_loop fuel new_fds (i + 1)
    else new_fds

/-- utils.minimize_right: copy, drop trivial FDs, null out redundant FDs in
index order, return the survivors. -/
def minimize_right (fds : List FD) : List FD :=
  (minimize_right_loop ((non_trivial fds).map some).length
    ((non_trivial fds).map some) 0).filterMap id

/-- The value sigma_plus_limited returns: a bare BinaryWord when no
non-trivial FD exists, otherwise a list built from a Python set of FDs,
modelled as the Finset because the list order of a Python set is
unspecified. -/
inductive SigmaResult where
  | word (w : BinaryWord)
  | fdset (s : Finset FD)
deriving DecidableEq

/-- One size step of sigma_plus_limited.  The source guard
attr_closure.pop_count == fds[0][0].length compares the bound method
pop_count itself, never called, with an int; in Python that comparison is
always False, so candidates is never extended and the combinations are
always generated with the pruning set the step received.  The state pair
(candidates, sigma_plus) mirrors the two sets of the source. -/
def sp_step (num_attrs : Nat) (nt : List FD)
    (state : Finset BinaryWord × Finset FD) (c : Nat) : Finset BinaryWord × Finset FD :=
  let comb := attribute_combinations num_attrs c state.1
  (state.1,
    state.2 ∪ comb.image (fun attr_set => (attr_set, attribute_closure attr_set (nt.map some) ∅)))

/-- The size loop of sigma_plus_limited over sizes 0..i-1. -/
def sp_loop (num_attrs : Nat) (nt : List FD) : Nat → Finset BinaryWord × Finset FD
  | 0 => (∅, ∅)
  | i + 1 => sp_step num_attrs nt (sp_loop num_attrs nt i) i

/-- utils.sigma_plus_limited: IndexError (none) on an empty list, the bare
all-ones word when no FD is non-trivial, otherwise the set of
(subset, closure(subset)) pairs over subset sizes 0..num_attrs-1. -/
def sigma_plus_limited (fds : List FD) : Option SigmaResult :=
  match fds.head? with
  | none => none
  | some fd0 =>
    let nt := non_trivial fds
    if nt.length = 0 then some (SigmaResult.word fd0.1.ones)
    else some (SigmaResult.fdset (sp_loop fd0.1.length nt fd0.1.length).2)

/-- test_normal_form.is_bcnf.  The length parameter is unused in the source
as well.  Triviality is tested here as (left AND right) == right. -/
def is_bcnf (_length : Nat) (fds : List FD) : Bool :=
  fds.all (fun fd =>
    let is_trivial := (fd.1.and fd.2).beq fd.2
    !(!is_trivial && !(is_superkey fd.1 fds)))

/-- is_subset_of(right, prime) in is_3nf reads only the value of the folded
prime word (the mask uses the length of right), so the prime union is
modelled by its value alone. -/
def subset_value (r : BinaryWord) (v : Nat) : Bool :=
  (r.value &&& v) % 2 ^ r.length == r.value

/-- The union of the values of all candidate keys, the reduce with OR of
is_3nf.  OR on Nat is commutative and associative, so the set iteration
order of the Python reduce cannot affect it. -/
def prime_value (cand_keys : Finset BinaryWord) : Nat :=
  cand_keys.fold (· ||| ·) 0 BinaryWord.value

/-- test_normal_form.is_3nf: none models both the IndexError of
candidate_keys on an empty list and the TypeError of reduce without
initializer on an empty key set.  A non-trivial FD violates 3NF when its
rhs is not inside the prime union and no candidate key is inside its lhs;
the reduce over cand_keys with or is the existence test. -/
def is_3nf (fds : List FD) : Option Bool :=
  match candidate_keys fds with
  | none => none
  | some cand_keys =>
    if cand_keys = ∅ then none
    else
      some (fds.all (fun fd =>
        let is_trivial := is_subset_of fd.2 fd.1
        !(!is_trivial && !(subset_value fd.2 (prime_value cand_keys)) &&
          !(decide (∃ K ∈ cand_keys, is_subset_of K fd.1 = true)))))

/-- test_normal_form.is_2nf: none models the IndexError of candidate_keys
on an empty list.  A non-trivial FD violates 2NF when its lhs is a proper
subset of some candidate key; the inner for loop is the existence test. -/
def is_2nf (fds : List FD) : Option Bool :=
  match candidate_keys fds with
  | none => none
  | some candidates =>
    some (fds.all (fun fd =>
      let is_trivial := is_subset_of fd.2 fd.1
      !(!is_trivial &&
        decide (∃ c ∈ candidates, is_proper_subset_of fd.1 c = true))))

/-- A word as the Python constructor leaves it: the declared length n and a
value below 2 ^ n. -/
def WFw (n : Nat) (w : BinaryWord) : Prop :=
  w.length = n ∧ w.value < 2 ^ n

/-- An FD list over n attributes: both sides of every FD well formed. -/
def WFfds (n : Nat) (fds : List FD) : Prop :=
  ∀ fd ∈ fds, WFw n fd.1 ∧ WFw n fd.2

/-- Well-formedness for the working lists of minimize_right, whose entries
may be None. -/
def WFofds (n : Nat) (fds : List (Option FD)) : Prop :=
  ∀ fd : FD, some fd ∈ fds → WFw n fd.1 ∧ WFw n fd.2

instance (n : Nat) (w : BinaryWord) : Decidable (WFw n w) := by
  unfold WFw; infer_instance

instance (n : Nat) (fds : List FD) : Decidable (WFfds n fds) := by
  unfold WFfds; infer_instance

/-- Value-level bitset containment: a AND b = a. -/
def SubN (a b : Nat) : Prop :=
  a &&& b = a

/-- A value z closed under the usable FDs of a working list: whenever the
lhs of a usable FD is contained in z, so is its rhs. -/
def ClosedN (fds : List (Option FD)) (exclude : Finset FD) (z : Nat) : Prop :=
  ∀ fd : FD, some fd ∈ fds → fd ∉ exclude → SubN fd.1.value z → SubN fd.2.value z

/-- The set of bit positions set in a word (within its declared length). -/
def bits (w : BinaryWord) : Finset Nat :=
  (Finset.range w.length).filter (fun i => w.value.testBit i = true)

/-- The working list of minimize_right is a per-position selection of the
list it started from: it has the same length and every present entry is
the original entry at its position. -/
def Sel (nt : List FD) (cur : List (Option FD)) : Prop :=
  cur.length = nt.length ∧
  ∀ (j : Nat) (fd : FD), cur[j]? = some (some fd) → nt[j]? = some fd

/-! ### Basic facts about the constructor -/

theorem init_length (l : Nat) (v : Int) : (BinaryWord.init l v).length = l := rfl

theorem init_value_int (l : Nat) (v : Int) :
    ((BinaryWord.init l v).value : Int) = v % (2 : Int) ^ l := by
  unfold BinaryWord.init
  exact Int.toNat_of_nonneg (Int.emod_nonneg v (by positivity))

theorem init_value_lt (l : Nat) (v : Int) : (BinaryWord.init l v).value < 2 ^ l := by
  have h1 : (0 : Int) < (2 : Int) ^ l := by positivity
  have h2 := Int.emod_lt_of_pos v h1
  have h3 := init_value_int l v
  have h4 : ((2 : Int) ^ l) = ((2 ^ l : Nat) : Int) := by push_cast; ring
  omega

theorem init_value_nat (l v : Nat) : (BinaryWord.init l ((v : Nat) : Int)).value = v % 2 ^ l := by
  have h3 := init_value_int l v
  have h4 : ((2 : Int) ^ l) = ((2 ^ l : Nat) : Int) := by push_cast; ring
  rw [h4] at h3
  omega

/-! ### Bitset containment at the value level -/

theorem subN_iff {a b : Nat} : SubN a b ↔ ∀ i, a.testBit i = true → b.testBit i = true := by
  constructor
  · intro h i hi
    have h2 : (a &&& b).testBit i = a.testBit i := by rw [h]
    rw [Nat.testBit_land, hi] at h2
    simpa using h2
  · intro h
    apply Nat.eq_of_testBit_eq
    intro i
    rw [Nat.testBit_land]
    cases ha : a.testBit i
    · simp
    · simp [h i ha]

theorem subN_refl (a : Nat) : SubN a a :=
  Nat.and_self a

theorem subN_trans {a b c : Nat} (h1 : SubN a b) (h2 : SubN b c) : SubN a c := by
  rw [subN_iff] at *
  exact fun i hi => h2 i (h1 i hi)

theorem subN_le {a b : Nat} (h : SubN a b) : a ≤ b := by
  calc a = a &&& b := h.symm
    _ ≤ b := Nat.and_le_right

theorem subN_antisymm {a b : Nat} (h1 : SubN a b) (h2 : SubN b a) : a = b :=
  Nat.le_antisymm (subN_le h1) (subN_le h2)

theorem subN_lt {a b : Nat} (h1 : SubN a b) (h2 : a ≠ b) : a < b :=
  Nat.lt_of_le_of_ne (subN_le h1) h2

theorem subN_zero (a : Nat) : SubN 0 a :=
  Nat.zero_and a

theorem subN_or_left (a b : Nat) : SubN a (a ||| b) := by
  rw [subN_iff]
  intro i hi
  rw [Nat.testBit_lor, hi]
  rfl

theorem subN_or_right (a b : Nat) : SubN b (a ||| b) := by
  rw [subN_iff]
  intro i hi
  rw [Nat.testBit_lor, hi, Bool.or_true]

theorem subN_or_lub {a b c : Nat} (h1 : SubN a c) (h2 : SubN b c) : SubN (a ||| b) c := by
  rw [subN_iff] at *
  intro i hi
  rw [Nat.testBit_lor] at hi
  rcases Bool.or_eq_true_iff.mp hi with h | h
  · exact h1 i h
  · exact h2 i h

theorem subN_mod_self (a n : Nat) : SubN (a % 2 ^ n) a := by
  rw [subN_iff]
  intro i hi
  rw [Nat.testBit_mod_two_pow] at hi
  exact (Bool.and_eq_true_iff.mp hi).2

theorem testBit_lt_of_lt {a n i : Nat} (h : a < 2 ^ n) (hi : a.testBit i = true) : i < n := by
  by_contra hin
  push_neg at hin
  have hf : a.testBit i = false :=
    Nat.testBit_lt_two_pow (Nat.lt_of_lt_of_le h (Nat.pow_le_pow_right (by norm_num) hin))
  rw [hf] at hi
  exact Bool.noConfusion hi

theorem subN_mod_of_lt {a b n : Nat} (ha : a < 2 ^ n) (h : SubN a b) : SubN a (b % 2 ^ n) := by
  rw [subN_iff] at *
  intro i hi
  rw [Nat.testBit_mod_two_pow, h i hi]
  simp [testBit_lt_of_lt ha hi]

theorem subN_of_or_mod_eq {a b n : Nat} (hb : b < 2 ^ n) (h : (a ||| b) % 2 ^ n = a) :
    SubN b a := by
  rw [subN_iff]
  intro i hi
  have hin : i < n := testBit_lt_of_lt hb hi
  have h2 : ((a ||| b) % 2 ^ n).testBit i = a.testBit i := by rw [h]
  rw [Nat.testBit_mod_two_pow, Nat.testBit_lor, hi] at h2
  simpa [hin] using h2.symm

/-! ### Bridge lemmas from BinaryWord operations to values -/

theorem beq_iff {a b : BinaryWord} : a.beq b = true ↔ a.value = b.value := by
  unfold BinaryWord.beq
  exact beq_iff_eq

theorem and_value (a b : BinaryWord) :
    (a.and b).value = (a.value &&& b.value) % 2 ^ a.length :=
  init_value_nat _ _

theorem or_value (a b : BinaryWord) :
    (a.or b).value = (a.value ||| b.value) % 2 ^ a.length :=
  init_value_nat _ _

theorem or_length (a b : BinaryWord) : (a.or b).length = a.length := rfl

theorem is_subset_of_iff {a b : BinaryWord} (h : a.value < 2 ^ a.length) :
    is_subset_of a b = true ↔ SubN a.value b.value := by
  unfold is_subset_of
  rw [beq_iff, and_value, Nat.mod_eq_of_lt (Nat.lt_of_le_of_lt Nat.and_le_left h)]
  exact Iff.rfl

/-! ### The closure engine: growth, well-formedness, fixpoint, closedness,
minimality -/

theorem closure_step_length (exclude : Finset FD) (acc : BinaryWord) (ofd : Option FD) :
    (closure_step exclude acc ofd).length = acc.length := by
  rcases ofd with _ | ⟨l, r⟩
  · rfl
  · unfold closure_step
    dsimp only
    split
    · rfl
    · split
      · rfl
      · rfl

theorem closure_step_sub (exclude : Finset FD) (acc : BinaryWord) (ofd : Option FD)
    (h : acc.value < 2 ^ acc.length) :
    SubN acc.value (closure_step exclude acc ofd).value ∧
    (closure_step exclude acc ofd).value < 2 ^ acc.length := by
  rcases ofd with _ | ⟨l, r⟩
  · exact ⟨subN_refl _, h⟩
  · unfold closure_step
    dsimp only
    split
    · exact ⟨subN_refl _, h⟩
    · split
      · rw [or_value]
        refine ⟨subN_mod_of_lt h (subN_or_left _ _), ?_⟩
        exact Nat.mod_lt _ (Nat.pos_pow_of_pos _ (by norm_num))
      · exact ⟨subN_refl _, h⟩

theorem closure_pass_sub (exclude : Finset FD) :
    ∀ (fds : List (Option FD)) (acc : BinaryWord), acc.value < 2 ^ acc.length →
      SubN acc.value (closure_pass fds exclude acc).value ∧
      (closure_pass fds exclude acc).value < 2 ^ acc.length ∧
      (closure_pass fds exclude acc).length = acc.length := by
  intro fds
  induction fds with
  | nil => exact fun acc h => ⟨subN_refl _, h, rfl⟩
  | cons ofd rest ih =>
    intro acc h
    have hcons : closure_pass (ofd :: rest) exclude acc =
        closure_pass rest exclude (closure_step exclude acc ofd) := rfl
    rw [hcons]
    have hs := closure_step_sub exclude acc ofd h
    have hl := closure_step_length exclude acc ofd
    have hr := ih (closure_step exclude acc ofd) (by rw [hl]; exact hs.2)
    refine ⟨subN_trans hs.1 hr.1, ?_, ?_⟩
    · have := hr.2.1
      rw [hl] at this
      exact this
    · rw [hr.2.2, hl]

theorem closure_loop_sub (fds : List (Option FD)) (exclude : Finset FD) :
    ∀ (fuel : Nat) (w : BinaryWord), w.value < 2 ^ w.length →
      SubN w.value (closure_loop fds exclude fuel w).value ∧
      (closure_loop fds exclude fuel w).value < 2 ^ w.length ∧
      (closure_loop fds exclude fuel w).length = w.length := by
  intro fuel
  induction fuel with
  | zero => exact fun w h => ⟨subN_refl _, h, rfl⟩
  | succ fuel ih =>
    intro w h
    unfold closure_loop
    dsimp only
    split
    · exact ⟨subN_refl _, h, rfl⟩
    · have hp := closure_pass_sub exclude fds w h
      have hw2 : (closure_pass fds exclude w).value < 2 ^ (closure_pass fds exclude w).length := by
        rw [hp.2.2]; exact hp.2.1
      have hr := ih (closure_pass fds exclude w) hw2
      refine ⟨subN_trans hp.1 hr.1, ?_, ?_⟩
      · have := hr.2.1
        rw [hp.2.2] at this
        exact this
      · rw [hr.2.2, hp.2.2]

theorem closure_loop_fix (fds : List (Option FD)) (exclude : Finset FD) :
    ∀ (fuel : Nat) (w : BinaryWord), w.value < 2 ^ w.length →
      2 ^ w.length - w.value < fuel →
      (closure_pass fds exclude (closure_loop fds exclude fuel w)).value =
        (closure_loop fds exclude fuel w).value := by
  intro fuel
  induction fuel with
  | zero => intro w h hf; omega
  | succ fuel ih =>
    intro w h hf
    unfold closure_loop
    dsimp only
    split
    · assumption
    · rename_i hne
      have hp := closure_pass_sub exclude fds w h
      have hw2 : (closure_pass fds exclude w).value < 2 ^ (closure_pass fds exclude w).length := by
        rw [hp.2.2]; exact hp.2.1
      apply ih (closure_pass fds exclude w) hw2
      have hlt : w.value < (closure_pass fds exclude w).value :=
        subN_lt hp.1 (fun hcontra => hne hcontra.symm)
      rw [hp.2.2]
      omega

theorem attribute_closure_sub (w : BinaryWord) (fds : List (Option FD)) (exclude : Finset FD)
    (h : w.value < 2 ^ w.length) :
    SubN w.value (attribute_closure w fds exclude).value ∧
    (attribute_closure w fds exclude).value < 2 ^ w.length ∧
    (attribute_closure w fds exclude).length = w.length :=
  closure_loop_sub fds exclude _ w h

theorem attribute_closure_fix (w : BinaryWord) (fds : List (Option FD)) (exclude : Finset FD)
    (h : w.value < 2 ^ w.length) :
    (closure_pass fds exclude (attribute_closure w fds exclude)).value =
      (attribute_closure w fds exclude).value :=
  closure_loop_fix fds exclude _ w h (by omega)

theorem pass_fix_closed (n : Nat) (exclude : Finset FD) :
    ∀ (fds : List (Option FD)) (acc : BinaryWord),
      acc.length = n → acc.value < 2 ^ n → WFofds n fds →
      (closure_pass fds exclude acc).value = acc.value →
      ∀ fd : FD, some fd ∈ fds → fd ∉ exclude → SubN fd.1.value acc.value →
        SubN fd.2.value acc.value := by
  intro fds
  induction fds with
  | nil =>
    intro acc _ _ _ _ fd hmem
    simp at hmem
  | cons ofd rest ih =>
    intro acc hlen hval hwf hfix fd hmem hex hsub
    have hstep := closure_step_sub exclude acc ofd (by rw [hlen]; exact hval)
    have hsteplen := closure_step_length exclude acc ofd
    have hpassrest := closure_pass_sub exclude rest (closure_step exclude acc ofd)
      (by rw [hsteplen]; exact hstep.2)
    have hfix2 : (closure_pass rest exclude (closure_step exclude acc ofd)).value =
        (closure_step exclude acc ofd).value := by
      have hchain1 : acc.value ≤ (closure_step exclude acc ofd).value := subN_le hstep.1
      have hchain2 : (closure_step exclude acc ofd).value ≤
          (closure_pass rest exclude (closure_step exclude acc ofd)).value :=
        subN_le hpassrest.1
      have hpasscons : (closure_pass (ofd :: rest) exclude acc).value = acc.value := hfix
      have : closure_pass (ofd :: rest) exclude acc =
          closure_pass rest exclude (closure_step exclude acc ofd) := rfl
      rw [this] at hpasscons
      omega
    have hstepval : (closure_step exclude acc ofd).value = acc.value := by
      have hchain2 : (closure_step exclude acc ofd).value ≤
          (closure_pass rest exclude (closure_step exclude acc ofd)).value :=
        subN_le hpassrest.1
      have : closure_pass (ofd :: rest) exclude acc =
          closure_pass rest exclude (closure_step exclude acc ofd) := rfl
      rw [this] at hfix
      have := subN_le hstep.1
      omega
    rcases List.mem_cons.mp hmem with hhead | htail
    · -- fd is the head entry
      subst hhead
      have hwfd := hwf fd (by simp)
      have hfire : is_subset_of fd.1 acc = true := by
        rw [is_subset_of_iff (by rw [hwfd.1.1]; exact hwfd.1.2)]
        exact hsub
      have hstepeq : closure_step exclude acc (some fd) = acc.or fd.2 := by
        rcases fd with ⟨l, r⟩
        show (if (l, r) ∈ exclude then acc
          else if (l.and acc).beq l then acc.or r else acc) = acc.or r
        rw [if_neg hex, if_pos (show ((l.and acc).beq l) = true from hfire)]
      rw [hstepeq] at hstepval
      rw [or_value] at hstepval
      rw [hlen] at hstepval
      exact subN_of_or_mod_eq hwfd.2.2 hstepval
    · -- fd is in the tail
      have hwfrest : WFofds n rest := fun g hg => hwf g (List.mem_cons_of_mem _ hg)
      have := ih (closure_step exclude acc ofd) (by rw [hsteplen, hlen])
        (by rw [hstepval]; exact hval) hwfrest
        (by rw [hfix2, hstepval])
        fd htail hex (by rw [hstepval]; exact hsub)
      rw [hstepval] at this
      exact this

theorem attribute_closure_closed (n : Nat) (w : BinaryWord) (fds : List (Option FD))
    (exclude : Finset FD) (hw : WFw n w) (hfds : WFofds n fds) :
    ClosedN fds exclude (attribute_closure w fds exclude).value := by
  intro fd hmem hex hsub
  have hsubw := attribute_closure_sub w fds exclude (by rw [hw.1]; exact hw.2)
  exact pass_fix_closed n exclude fds (attribute_closure w fds exclude)
    (by rw [hsubw.2.2, hw.1]) (by rw [hsubw.2.2] at hsubw; rw [← hw.1]; exact hsubw.2.1) hfds
    (attribute_closure_fix w fds exclude (by rw [hw.1]; exact hw.2))
    fd hmem hex hsub

theorem closure_step_le (n : Nat) (exclude : Finset FD) (acc : BinaryWord) (ofd : Option FD)
    (z : Nat) (hwf : ∀ fd : FD, ofd = some fd → WFw n fd.1 ∧ WFw n fd.2)
    (hz : ∀ fd : FD, ofd = some fd → fd ∉ exclude → SubN fd.1.value z → SubN fd.2.value z)
    (hacc : SubN acc.value z) :
    SubN (closure_step exclude acc ofd).value z := by
  rcases ofd with _ | ⟨l, r⟩
  · exact hacc
  · unfold closure_step
    dsimp only
    split
    · exact hacc
    · split
      · rename_i hex hfire
        have hwfd := hwf (l, r) rfl
        have hl : SubN l.value acc.value := by
          rw [← is_subset_of_iff (by rw [hwfd.1.1]; exact hwfd.1.2)]
          exact hfire
        have hr : SubN r.value z := hz (l, r) rfl hex (subN_trans hl hacc)
        rw [or_value]
        exact subN_trans (subN_mod_self _ _) (subN_or_lub hacc hr)
      · exact hacc

theorem closure_pass_le (n : Nat) (exclude : Finset FD) (z : Nat) :
    ∀ (fds : List (Option FD)) (acc : BinaryWord), WFofds n fds →
      ClosedN fds exclude z → SubN acc.value z →
      SubN (closure_pass fds exclude acc).value z := by
  intro fds
  induction fds with
  | nil => exact fun acc _ _ h => h
  | cons ofd rest ih =>
    intro acc hwf hz hacc
    have hstep : SubN (closure_step exclude acc ofd).value z := by
      apply closure_step_le n exclude acc ofd z
      · intro fd hfd
        exact hwf fd (by rw [hfd]; simp)
      · intro fd hfd hex hsub
        exact hz fd (by rw [hfd]; simp) hex hsub
      · exact hacc
    exact ih (closure_step exclude acc ofd)
      (fun g hg => hwf g (List.mem_cons_of_mem _ hg))
      (fun g hg hex hsub => hz g (List.mem_cons_of_mem _ hg) hex hsub)
      hstep

theorem closure_loop_le (n : Nat) (fds : List (Option FD)) (exclude : Finset FD) (z : Nat)
    (hwf : WFofds n fds) (hz : ClosedN fds exclude z) :
    ∀ (fuel : Nat) (w : BinaryWord), SubN w.value z →
      SubN (closure_loop fds exclude fuel w).value z := by
  intro fuel
  induction fuel with
  | zero => exact fun w h => h
  | succ fuel ih =>
    intro w h
    unfold closure_loop
    dsimp only
    split
    · exact h
    · exact ih (closure_pass fds exclude w) (closure_pass_le n exclude z fds w hwf hz h)

theorem attribute_closure_le (n : Nat) (w : BinaryWord) (fds : List (Option FD))
    (exclude : Finset FD) (z : Nat) (hwf : WFofds n fds) (hz : ClosedN fds exclude z)
    (hw : SubN w.value z) :
    SubN (attribute_closure w fds exclude).value z :=
  closure_loop_le n fds exclude z hwf hz _ w hw

theorem wfofds_of_map (n : Nat) (F : List FD) (h : WFfds n F) : WFofds n (F.map some) := by
  intro fd hmem
  rw [List.mem_map] at hmem
  rcases hmem with ⟨g, hg, hgeq⟩
  have hg2 : g = fd := Option.some.inj hgeq
  subst hg2
  exact h g hg

/-! ### Subset words, combinations and the candidate-key loop -/

theorem bw_eq_of {a b : BinaryWord} (h1 : a.length = b.length) (h2 : a.value = b.value) :
    a = b := by
  cases a
  cases b
  simp_all

theorem orPow_empty : orPow ∅ = 0 := rfl

theorem orPow_insert {a : Nat} {s : Finset Nat} (h : a ∉ s) :
    orPow (insert a s) = 2 ^ a ||| orPow s :=
  Finset.fold_insert h

theorem testBit_orPow (s : Finset Nat) (i : Nat) :
    (orPow s).testBit i = decide (i ∈ s) := by
  induction s using Finset.induction_on with
  | empty => simp [orPow]
  | insert ha ih =>
    rename_i a t
    rw [orPow_insert ha, Nat.testBit_lor, ih, Nat.testBit_two_pow]
    by_cases hai : a = i
    · subst hai
      simp
    · simp [hai, Finset.mem_insert, Ne.symm hai]

theorem orPow_lt {n : Nat} {s : Finset Nat} (h : s ⊆ Finset.range n) : orPow s < 2 ^ n := by
  induction s using Finset.induction_on with
  | empty =>
    rw [orPow_empty]
    exact Nat.pos_pow_of_pos n (by norm_num)
  | insert ha ih =>
    rename_i a t
    rw [orPow_insert ha]
    apply Nat.or_lt_two_pow
    · exact Nat.pow_lt_pow_right (by norm_num)
        (Finset.mem_range.mp (h (Finset.mem_insert_self a t)))
    · exact ih (fun x hx => h (Finset.mem_insert_of_mem hx))

theorem subN_orPow_iff {s t : Finset Nat} : SubN (orPow s) (orPow t) ↔ s ⊆ t := by
  rw [subN_iff]
  constructor
  · intro h i hi
    have h2 := h i (by rw [testBit_orPow]; simpa using hi)
    rw [testBit_orPow] at h2
    simpa using h2
  · intro h i hi
    rw [testBit_orPow] at hi ⊢
    simp only [decide_eq_true_eq] at hi ⊢
    exact h hi

theorem mem_attribute_combinations {n c : Nat} {exclude : Finset BinaryWord} {K : BinaryWord} :
    K ∈ attribute_combinations n c exclude ↔
      (∃ s, s ⊆ Finset.range n ∧ s.card = c ∧ K = comb_word n s) ∧
      ∀ w ∈ exclude, is_subset_of w K = false := by
  unfold attribute_combinations
  simp only [Finset.mem_filter, Finset.mem_image, Finset.mem_powersetCard]
  constructor
  · rintro ⟨⟨s, ⟨hs1, hs2⟩, hkey⟩, hex⟩
    exact ⟨⟨s, hs1, hs2, hkey.symm⟩, hex⟩
  · rintro ⟨⟨s, hs1, hs2, hkey⟩, hex⟩
    exact ⟨⟨s, ⟨hs1, hs2⟩, hkey.symm⟩, hex⟩

theorem mem_non_trivial {fd : FD} {F : List FD} :
    fd ∈ non_trivial F ↔ fd ∈ F ∧ is_subset_of fd.2 fd.1 = false := by
  unfold non_trivial
  rw [List.mem_filter]
  simp

theorem wf_non_trivial (n : Nat) (F : List FD) (hF : WFfds n F) :
    WFfds n (non_trivial F) :=
  fun fd hfd => hF fd (mem_non_trivial.mp hfd).1

theorem ones_init_value (l : Nat) :
    (BinaryWord.init l ((2 : Int) ^ l - 1)).value = 2 ^ l - 1 := by
  have h1 : (1 : Nat) ≤ 2 ^ l := Nat.one_le_two_pow
  have hcast : ((2 : Int) ^ l - 1) = (((2 ^ l - 1 : Nat)) : Int) := by
    rw [Nat.cast_sub h1]
    push_cast
    ring
  rw [hcast, init_value_nat]
  exact Nat.mod_eq_of_lt (by omega)

theorem ones_value (w : BinaryWord) : w.ones.value = 2 ^ w.length - 1 :=
  ones_init_value w.length

theorem ones_length (w : BinaryWord) : w.ones.length = w.length := rfl

theorem is_superkey_iff {K : BinaryWord} {fds : List FD} :
    is_superkey K fds = true ↔
      (attribute_closure K (fds.map some) ∅).value = 2 ^ K.length - 1 := by
  unfold is_superkey
  rw [beq_iff, ones_init_value]

/-- Trivial FDs never contribute to a closure: the closure under F equals
the closure under the non-trivial part of F. -/
theorem closure_non_trivial_eq (n : Nat) (w : BinaryWord) (F : List FD)
    (hw : WFw n w) (hF : WFfds n F) :
    attribute_closure w (F.map some) ∅ = attribute_closure w ((non_trivial F).map some) ∅ := by
  have hofds := wfofds_of_map n F hF
  have hofdsnt := wfofds_of_map n (non_trivial F) (wf_non_trivial n F hF)
  have hwlt : w.value < 2 ^ w.length := by rw [hw.1]; exact hw.2
  have hsubF := attribute_closure_sub w (F.map some) ∅ hwlt
  have hsubNT := attribute_closure_sub w ((non_trivial F).map some) ∅ hwlt
  apply bw_eq_of (by rw [hsubF.2.2, hsubNT.2.2])
  apply subN_antisymm
  · -- closure under F is below the closure under the non-trivial part
    apply attribute_closure_le n w (F.map some) ∅ _ hofds _ hsubNT.1
    intro fd hmem _ hsub
    rw [List.mem_map] at hmem
    rcases hmem with ⟨g, hg, hgeq⟩
    have hgfd : g = fd := Option.some.inj hgeq
    subst hgfd
    by_cases htriv : is_subset_of g.2 g.1 = true
    · have hwfg := hF g hg
      have : SubN g.2.value g.1.value :=
        (is_subset_of_iff (by rw [hwfg.2.1]; exact hwfg.2.2)).mp htriv
      exact subN_trans this hsub
    · have hgnt : g ∈ non_trivial F :=
        mem_non_trivial.mpr ⟨hg, by cases hb : is_subset_of g.2 g.1 with
          | true => exact absurd hb htriv
          | false => rfl⟩
      exact attribute_closure_closed n w ((non_trivial F).map some) ∅ hw hofdsnt g
        (List.mem_map.mpr ⟨g, hgnt, rfl⟩) (by simp) hsub
  · -- closure under the non-trivial part is below the closure under F
    apply attribute_closure_le n w ((non_trivial F).map some) ∅ _ hofdsnt _ hsubF.1
    intro fd hmem _ hsub
    rw [List.mem_map] at hmem
    rcases hmem with ⟨g, hg, hgeq⟩
    have hgfd : g = fd := Option.some.inj hgeq
    subst hgfd
    exact attribute_closure_closed n w (F.map some) ∅ hw hofds g
      (List.mem_map.mpr ⟨g, (mem_non_trivial.mp hg).1, rfl⟩) (by simp) hsub

theorem is_superkey_non_trivial (n : Nat) (K : BinaryWord) (F : List FD)
    (hK : WFw n K) (hF : WFfds n F) :
    is_superkey K F = is_superkey K (non_trivial F) := by
  unfold is_superkey
  rw [closure_non_trivial_eq n K F hK hF]

theorem ck_loop_succ_subset (num_attrs : Nat) (nt : List FD) (i : Nat) :
    ck_loop num_attrs nt i ⊆ ck_loop num_attrs nt (i + 1) :=
  fun _ hK => Finset.mem_union_left _ hK

theorem ck_loop_mono (num_attrs : Nat) (nt : List FD) {i j : Nat} (h : i ≤ j) :
    ck_loop num_attrs nt i ⊆ ck_loop num_attrs nt j := by
  induction h with
  | refl => exact fun K hK => hK
  | step _ ih => exact fun K hK => ck_loop_succ_subset _ _ _ (ih hK)

theorem mem_ck_loop_elim {num_attrs : Nat} {nt : List FD} {K : BinaryWord} :
    ∀ {i : Nat}, K ∈ ck_loop num_attrs nt i →
      ∃ j, j < i ∧ K ∈ attribute_combinations num_attrs j (ck_loop num_attrs nt j) ∧
        is_superkey K nt = true := by
  intro i
  induction i with
  | zero => intro h; simp [ck_loop] at h
  | succ i ih =>
    intro h
    rcases Finset.mem_union.mp h with h2 | h2
    · rcases ih h2 with ⟨j, hj, hmem, hsk⟩
      exact ⟨j, Nat.lt_succ_of_lt hj, hmem, hsk⟩
    · rw [Finset.mem_filter] at h2
      exact ⟨i, Nat.lt_succ_self i, h2.1, h2.2⟩

theorem mem_ck_loop_intro {num_attrs : Nat} {nt : List FD} {K : BinaryWord} {j i : Nat}
    (hj : j < i) (hmem : K ∈ attribute_combinations num_attrs j (ck_loop num_attrs nt j))
    (hsk : is_superkey K nt = true) : K ∈ ck_loop num_attrs nt i := by
  apply ck_loop_mono num_attrs nt hj
  exact Finset.mem_union_right _ (Finset.mem_filter.mpr ⟨hmem, hsk⟩)

/-! ### The working list of minimize_right -/

theorem sel_refl (nt : List FD) : Sel nt (nt.map some) := by
  refine ⟨by simp, ?_⟩
  intro j fd h
  rw [List.getElem?_map] at h
  cases hj : nt[j]? with
  | none => simp [hj] at h
  | some g =>
    rw [hj] at h
    simp at h
    rw [h]

theorem sel_set_none {nt : List FD} {cur : List (Option FD)} (h : Sel nt cur) (i : Nat) :
    Sel nt (cur.set i none) := by
  refine ⟨by rw [List.length_set]; exact h.1, ?_⟩
  intro j fd hj
  by_cases hij : i = j
  · subst hij
    rw [List.getElem?_set_self'] at hj
    cases hc : cur[i]? with
    | none => rw [hc] at hj; simp at hj
    | some o => rw [hc] at hj; simp [Function.const] at hj
  · rw [List.getElem?_set_ne hij] at hj
    exact h.2 j fd hj

theorem sel_mem {nt : List FD} {cur : List (Option FD)} (h : Sel nt cur) {fd : FD}
    (hmem : some fd ∈ cur) : fd ∈ nt := by
  rcases List.mem_iff_getElem?.mp hmem with ⟨j, hj⟩
  exact List.getElem?_mem (h.2 j fd hj)

theorem sel_wfofds {n : Nat} {nt : List FD} {cur : List (Option FD)} (hnt : WFfds n nt)
    (h : Sel nt cur) : WFofds n cur :=
  fun fd hmem => hnt fd (sel_mem h hmem)

theorem mem_set_none {cur : List (Option FD)} {i : Nat} {g : FD}
    (h : some g ∈ cur.set i none) : some g ∈ cur := by
  rcases List.mem_iff_getElem?.mp h with ⟨j, hj⟩
  by_cases hij : i = j
  · subst hij
    rw [List.getElem?_set_self'] at hj
    cases hc : cur[i]? with
    | none => rw [hc] at hj; simp at hj
    | some o => rw [hc] at hj; simp [Function.const] at hj
  · rw [List.getElem?_set_ne hij] at hj
    exact List.getElem?_mem hj

theorem mem_set_none_of_ne {cur : List (Option FD)} {i : Nat} {fd g : FD}
    (hget : cur[i]? = some (some fd)) (h : some g ∈ cur) (hne : g ≠ fd) :
    some g ∈ cur.set i none := by
  rcases List.mem_iff_getElem?.mp h with ⟨j, hj⟩
  by_cases hij : i = j
  · subst hij
    have hfg : fd = g := by
      rw [hget] at hj
      exact Option.some.inj (Option.some.inj hj)
    exact absurd hfg.symm hne
  · apply List.mem_iff_getElem?.mpr ⟨j, ?_⟩
    rw [List.getElem?_set_ne hij]
    exact hj

theorem mem_filterMap_map (l : List (Option FD)) (g : FD) :
    some g ∈ (l.filterMap id).map some ↔ some g ∈ l := by
  constructor
  · intro h
    rcases List.mem_map.mp h with ⟨a, ha, hae⟩
    have hag : a = g := Option.some.inj hae
    subst hag
    rcases List.mem_filterMap.mp ha with ⟨o, ho, hoe⟩
    have hoa : o = some a := hoe
    rw [hoa] at ho
    exact ho
  · intro h
    exact List.mem_map.mpr ⟨g, List.mem_filterMap.mpr ⟨some g, h, rfl⟩, rfl⟩

theorem attribute_closure_list_mono (n : Nat) (w : BinaryWord)
    (fds1 fds2 : List (Option FD)) (ex1 ex2 : Finset FD)
    (hw : WFw n w) (hwf1 : WFofds n fds1) (hwf2 : WFofds n fds2)
    (hsub : ∀ fd : FD, some fd ∈ fds1 → fd ∉ ex1 → some fd ∈ fds2 ∧ fd ∉ ex2) :
    SubN (attribute_closure w fds1 ex1).value (attribute_closure w fds2 ex2).value := by
  have hwlt : w.value < 2 ^ w.length := by rw [hw.1]; exact hw.2
  apply attribute_closure_le n w fds1 ex1 _ hwf1 _ (attribute_closure_sub w fds2 ex2 hwlt).1
  intro fd hmem hex hs
  rcases hsub fd hmem hex with ⟨hm2, he2⟩
  exact attribute_closure_closed n w fds2 ex2 hw hwf2 fd hm2 he2 hs

theorem attribute_closure_congr (n : Nat) (w : BinaryWord)
    (fds1 fds2 : List (Option FD)) (ex1 ex2 : Finset FD)
    (hw : WFw n w) (hwf1 : WFofds n fds1) (hwf2 : WFofds n fds2)
    (hiff : ∀ fd : FD, (some fd ∈ fds1 ∧ fd ∉ ex1) ↔ (some fd ∈ fds2 ∧ fd ∉ ex2)) :
    attribute_closure w fds1 ex1 = attribute_closure w fds2 ex2 := by
  have hwlt : w.value < 2 ^ w.length := by rw [hw.1]; exact hw.2
  apply bw_eq_of
  · rw [(attribute_closure_sub w fds1 ex1 hwlt).2.2,
      (attribute_closure_sub w fds2 ex2 hwlt).2.2]
  · exact subN_antisymm
      (attribute_closure_list_mono n w fds1 fds2 ex1 ex2 hw hwf1 hwf2
        (fun fd h1 h2 => (hiff fd).mp ⟨h1, h2⟩))
      (attribute_closure_list_mono n w fds2 fds1 ex2 ex1 hw hwf2 hwf1
        (fun fd h1 h2 => (hiff fd).mpr ⟨h1, h2⟩))

/-- Removing a redundant entry (one whose rhs is already implied without
it) does not change any closure. -/
theorem closure_set_none_eq (n : Nat) {nt : List FD} (hnt : WFfds n nt)
    {cur : List (Option FD)} (hSel : Sel nt cur) {i : Nat} {fd : FD}
    (hget : cur[i]? = some (some fd))
    (hred : is_subset_of fd.2 (attribute_closure fd.1 cur {fd}) = true)
    (X : BinaryWord) (hX : WFw n X) :
    attribute_closure X (cur.set i none) ∅ = attribute_closure X cur ∅ := by
  have hwfc : WFofds n cur := sel_wfofds hnt hSel
  have hwfs : WFofds n (cur.set i none) := fun g hg => hwfc g (mem_set_none hg)
  have hfdmem : some fd ∈ cur := List.getElem?_mem hget
  have hwfd := hwfc fd hfdmem
  have hXlt : X.value < 2 ^ X.length := by rw [hX.1]; exact hX.2
  apply bw_eq_of
  · rw [(attribute_closure_sub X _ ∅ hXlt).2.2, (attribute_closure_sub X _ ∅ hXlt).2.2]
  apply subN_antisymm
  · exact attribute_closure_list_mono n X (cur.set i none) cur ∅ ∅ hX hwfs hwfc
      (fun g hg _ => ⟨mem_set_none hg, by simp⟩)
  · apply attribute_closure_le n X cur ∅ _ hwfc _
      (attribute_closure_sub X (cur.set i none) ∅ hXlt).1
    intro g hgmem _ hgsub
    by_cases hgfd : g = fd
    · subst hgfd
      have hfd2wf : g.2.value < 2 ^ g.2.length := by rw [hwfd.2.1]; exact hwfd.2.2
      have hsub1 : SubN g.2.value (attribute_closure g.1 cur {g}).value :=
        (is_subset_of_iff hfd2wf).mp hred
      have hsub2 : SubN (attribute_closure g.1 cur {g}).value
          (attribute_closure g.1 (cur.set i none) ∅).value := by
        apply attribute_closure_list_mono n g.1 cur (cur.set i none) {g} ∅ hwfd.1 hwfc hwfs
        intro g2 hg2 hg2ex
        exact ⟨mem_set_none_of_ne hget hg2 (by simpa using hg2ex), by simp⟩
      have hsub3 : SubN (attribute_closure g.1 (cur.set i none) ∅).value
          (attribute_closure X (cur.set i none) ∅).value :=
        attribute_closure_le n g.1 (cur.set i none) ∅ _ hwfs
          (attribute_closure_closed n X (cur.set i none) ∅ hX hwfs) hgsub
      exact subN_trans hsub1 (subN_trans hsub2 hsub3)
    · exact attribute_closure_closed n X (cur.set i none) ∅ hX hwfs g
        (mem_set_none_of_ne hget hgmem hgfd) (by simp) hgsub

/-- The induction behind minimize_right: the loop result is still a
selection of the start list, it is closure-equivalent to the list it was
called on, and every surviving entry fails the redundancy test against the
final working list. -/
theorem minimize_right_loop_master (n : Nat) (nt : List FD) (hnt : WFfds n nt) :
    ∀ (k i : Nat) (cur : List (Option FD)), cur.length - i ≤ k → Sel nt cur →
      (∀ (j : Nat) (fd : FD), j < i → cur[j]? = some (some fd) →
        is_subset_of fd.2 (attribute_closure fd.1 cur {fd}) = false) →
      Sel nt (minimize_right_loop k cur i) ∧
      (∀ X : BinaryWord, WFw n X →
        attribute_closure X (minimize_right_loop k cur i) ∅ = attribute_closure X cur ∅) ∧
      (∀ (j : Nat) (fd : FD), (minimize_right_loop k cur i)[j]? = some (some fd) →
        is_subset_of fd.2
          (attribute_closure fd.1 (minimize_right_loop k cur i) {fd}) = false) := by
  intro k
  induction k with
  | zero =>
    intro i cur hk hSel hInv
    rw [minimize_right_loop]
    refine ⟨hSel, fun X _ => rfl, ?_⟩
    intro j fd hj
    have hjlen : j < cur.length := by
      by_contra hc
      push_neg at hc
      rw [List.getElem?_eq_none hc] at hj
      exact Option.noConfusion hj
    exact hInv j fd (by omega) hj
  | succ k ih =>
    intro i cur hk hSel hInv
    by_cases hlt : i < cur.length
    · rw [minimize_right_loop, dif_pos hlt]
      have hgetbase : cur[i]? = some (cur.get ⟨i, hlt⟩) := by
        rw [List.getElem?_eq_getElem hlt]
        rfl
      split
      · -- the (unreachable in runs from the start state) None branch
        rename_i hget
        apply ih (i + 1) cur (by omega) hSel
        intro j fd hj hjget
        rcases Nat.lt_or_ge j i with hji | hji
        · exact hInv j fd hji hjget
        · have hji2 : j = i := by omega
          subst hji2
          rw [hget] at hgetbase
          rw [hgetbase] at hjget
          exact Option.noConfusion (Option.some.inj hjget)
      · rename_i fd hget
        have hget? : cur[i]? = some (some fd) := by
          rw [hget] at hgetbase
          exact hgetbase
        split
        · -- the entry is redundant and is overwritten with None
          rename_i hred
          have hSel2 := sel_set_none hSel i
          have hInv2 : ∀ (j : Nat) (g : FD), j < i + 1 →
              (cur.set i none)[j]? = some (some g) →
              is_subset_of g.2 (attribute_closure g.1 (cur.set i none) {g}) = false := by
            intro j g hj hjget
            rcases Nat.lt_or_ge j i with hji | hji
            · rw [List.getElem?_set_ne (by omega : i ≠ j)] at hjget
              have hInvj := hInv j g hji hjget
              cases hb : is_subset_of g.2 (attribute_closure g.1 (cur.set i none) {g}) with
              | false => rfl
              | true =>
                exfalso
                have hgmem : some g ∈ cur := List.getElem?_mem hjget
                have hgwf := sel_wfofds hnt hSel g hgmem
                have hg2lt : g.2.value < 2 ^ g.2.length := by
                  rw [hgwf.2.1]; exact hgwf.2.2
                have hsubsmall : SubN g.2.value
                    (attribute_closure g.1 (cur.set i none) {g}).value :=
                  (is_subset_of_iff hg2lt).mp hb
                have hmono : SubN (attribute_closure g.1 (cur.set i none) {g}).value
                    (attribute_closure g.1 cur {g}).value := by
                  apply attribute_closure_list_mono n g.1 (cur.set i none) cur {g} {g}
                    hgwf.1 (fun x hx => sel_wfofds hnt hSel x (mem_set_none hx))
                    (sel_wfofds hnt hSel)
                  exact fun x hx hxex => ⟨mem_set_none hx, hxex⟩
                have : is_subset_of g.2 (attribute_closure g.1 cur {g}) = true :=
                  (is_subset_of_iff hg2lt).mpr (subN_trans hsubsmall hmono)
                rw [hInvj] at this
                exact Bool.noConfusion this
            · have hji2 : j = i := by omega
              subst hji2
              rw [List.getElem?_set_self'] at hjget
              rw [hget?] at hjget
              simp [Function.const] at hjget
          have hrec := ih (i + 1) (cur.set i none)
            (by rw [List.length_set]; omega) hSel2 hInv2
          refine ⟨hrec.1, ?_, hrec.2.2⟩
          intro X hX
          rw [hrec.2.1 X hX]
          exact closure_set_none_eq n hnt hSel hget? (by assumption) X hX
        · -- the entry is kept
          rename_i hred
          apply ih (i + 1) cur (by omega) hSel
          intro j g hj hjget
          rcases Nat.lt_or_ge j i with hji | hji
          · exact hInv j g hji hjget
          · have hji2 : j = i := by omega
            subst hji2
            rw [hget?] at hjget
            have hgfd : fd = g := Option.some.inj (Option.some.inj hjget)
            subst hgfd
            cases hb : is_subset_of fd.2 (attribute_closure fd.1 cur {fd}) with
            | false => rfl
            | true => exact absurd hb hred
    · rw [minimize_right_loop, dif_neg hlt]
      refine ⟨hSel, fun X _ => rfl, ?_⟩
      intro j fd hj
      have hjlen : j < cur.length := by
        by_contra hc
        push_neg at hc
        rw [List.getElem?_eq_none hc] at hj
        exact Option.noConfusion hj
      exact hInv j fd (by omega) hj

theorem mem_filterMap_id (L : List (Option FD)) (g : FD) :
    g ∈ L.filterMap id ↔ some g ∈ L := by
  constructor
  · intro h
    rcases List.mem_filterMap.mp h with ⟨o, ho, hoe⟩
    have hog : o = some g := hoe
    rw [hog] at ho
    exact ho
  · intro h
    exact List.mem_filterMap.mpr ⟨some g, h, rfl⟩

theorem sel_filterMap_sublist :
    ∀ (cur : List (Option FD)) (nt : List FD), Sel nt cur →
      List.Sublist (cur.filterMap id) nt := by
  intro cur
  induction cur with
  | nil => intro nt _; exact List.nil_sublist nt
  | cons o cur2 ih =>
    intro nt hSel
    rcases nt with _ | ⟨a, nt2⟩
    · have := hSel.1
      simp at this
    · have hshift : Sel nt2 cur2 := by
        refine ⟨by have h1 := hSel.1; simpa using h1, ?_⟩
        intro j fd hj
        have h2 := hSel.2 (j + 1) fd (by simpa using hj)
        simpa using h2
      cases o with
      | none => simpa using List.Sublist.cons a (ih nt2 hshift)
      | some g =>
        have hga : a = g := by
          have h0 := hSel.2 0 g (by simp)
          have h1 : g = a := by simpa using h0.symm
          exact h1.symm
        subst hga
        simpa using List.Sublist.cons₂ a (ih nt2 hshift)

theorem nodup_eraseIdx_mem :
    ∀ (R : List FD) (k : Nat) (hk : k < R.length), R.Nodup →
      ∀ g : FD, g ∈ R.eraseIdx k ↔ (g ∈ R ∧ g ≠ R.get ⟨k, hk⟩) := by
  intro R
  induction R with
  | nil => intro k hk; simp at hk
  | cons a t ih =>
    intro k hk hnod g
    cases k with
    | zero =>
      show g ∈ t ↔ _
      constructor
      · intro hg
        refine ⟨List.mem_cons_of_mem a hg, ?_⟩
        intro hga
        rw [show (a :: t).get ⟨0, hk⟩ = a from rfl] at hga
        rw [hga] at hg
        exact (List.nodup_cons.mp hnod).1 hg
      · rintro ⟨hg, hne⟩
        rcases List.mem_cons.mp hg with h | h
        · exact absurd h hne
        · exact h
    | succ k2 =>
      have hk2 : k2 < t.length := by simpa using hk
      show g ∈ a :: t.eraseIdx k2 ↔ _
      rw [List.mem_cons, ih k2 hk2 (List.nodup_cons.mp hnod).2 g, List.mem_cons]
      have hgetshift : (a :: t).get ⟨k2 + 1, hk⟩ = t.get ⟨k2, hk2⟩ := rfl
      constructor
      · rintro (h | ⟨h1, h2⟩)
        · subst h
          refine ⟨Or.inl rfl, ?_⟩
          intro hcontra
          rw [hgetshift] at hcontra
          exact (List.nodup_cons.mp hnod).1 (by rw [hcontra]; exact List.get_mem t _ _)
        · exact ⟨Or.inr h1, by rw [hgetshift]; exact h2⟩
      · rintro ⟨h1 | h1, h2⟩
        · exact Or.inl h1
        · refine Or.inr ⟨h1, ?_⟩
          rw [hgetshift] at h2
          exact h2

/-! ### Minimal superkeys, for the BCNF-to-3NF step -/

theorem mem_bits {w : BinaryWord} {i : Nat} :
    i ∈ bits w ↔ i < w.length ∧ w.value.testBit i = true := by
  unfold bits
  rw [Finset.mem_filter, Finset.mem_range]

theorem bits_subset_range (w : BinaryWord) : bits w ⊆ Finset.range w.length := by
  intro i hi
  rw [Finset.mem_range]
  exact (mem_bits.mp hi).1

theorem orPow_bits {n : Nat} {w : BinaryWord} (hw : WFw n w) : orPow (bits w) = w.value := by
  apply Nat.eq_of_testBit_eq
  intro i
  rw [testBit_orPow]
  by_cases hb : w.value.testBit i = true
  · have hin : i < w.length := by
      rw [hw.1]
      exact testBit_lt_of_lt hw.2 hb
    simp [mem_bits, hin, hb]
  · have hb2 : w.value.testBit i = false := by
      cases h : w.value.testBit i
      · rfl
      · exact absurd h hb
    simp [mem_bits, hb2]

theorem comb_word_bits {n : Nat} {w : BinaryWord} (hw : WFw n w) :
    comb_word n (bits w) = w := by
  apply bw_eq_of
  · show n = w.length
    exact hw.1.symm
  · show orPow (bits w) = w.value
    exact orPow_bits hw

theorem exists_minimal_superkey (n : Nat) (nt : List FD) :
    ∀ s : Finset Nat, s ⊆ Finset.range n → is_superkey (comb_word n s) nt = true →
      ∃ m, m ⊆ s ∧ is_superkey (comb_word n m) nt = true ∧
        ∀ t, t ⊂ m → is_superkey (comb_word n t) nt = false := by
  intro s
  induction s using Finset.strongInduction with
  | _ s ih =>
    intro hsub hsk
    by_cases hmin : ∃ t, t ⊂ s ∧ is_superkey (comb_word n t) nt = true
    · rcases hmin with ⟨t, hts, htk⟩
      rcases ih t hts (fun x hx => hsub (hts.subset hx)) htk with ⟨m, hm1, hm2, hm3⟩
      exact ⟨m, fun x hx => hts.subset (hm1 hx), hm2, hm3⟩
    · push_neg at hmin
      refine ⟨s, Finset.Subset.refl s, hsk, ?_⟩
      intro t hts
      cases hb : is_superkey (comb_word n t) nt with
      | false => rfl
      | true => exact absurd hb (hmin t hts)

/-- A non-trivial well-formed FD yields a superkey that misses one
attribute: all attributes except a bit of the rhs outside the lhs. -/
theorem erase_superkey (n : Nat) (nt : List FD) (hnt : WFfds n nt)
    (g : FD) (hg : g ∈ nt) (hgnontriv : is_subset_of g.2 g.1 = false) :
    ∃ a, a < n ∧
      is_superkey (comb_word n ((Finset.range n).erase a)) nt = true := by
  have hwg := hnt g hg
  have hg2lt : g.2.value < 2 ^ g.2.length := by rw [hwg.2.1]; exact hwg.2.2
  have hnsub : ¬ SubN g.2.value g.1.value := by
    intro hcontra
    have h2 := (is_subset_of_iff hg2lt).mpr hcontra
    rw [hgnontriv] at h2
    exact Bool.noConfusion h2
  have hex : ∃ a, g.2.value.testBit a = true ∧ g.1.value.testBit a = false := by
    by_contra hc
    push_neg at hc
    apply hnsub
    rw [subN_iff]
    intro i hi
    cases hb : g.1.value.testBit i with
    | true => rfl
    | false => exact absurd hb (hc i hi)
  rcases hex with ⟨a, ha2, ha1⟩
  have han : a < n := testBit_lt_of_lt hwg.2.2 ha2
  refine ⟨a, han, ?_⟩
  have hSsub : (Finset.range n).erase a ⊆ Finset.range n :=
    Finset.erase_subset a (Finset.range n)
  have hclt : (comb_word n ((Finset.range n).erase a)).value <
      2 ^ (comb_word n ((Finset.range n).erase a)).length := orPow_lt hSsub
  rw [is_superkey_iff]
  have hsubx := attribute_closure_sub (comb_word n ((Finset.range n).erase a))
    (nt.map some) ∅ hclt
  have hwofds := wfofds_of_map n nt hnt
  have hcomb_wf : WFw n (comb_word n ((Finset.range n).erase a)) := ⟨rfl, orPow_lt hSsub⟩
  have hclosed := attribute_closure_closed n (comb_word n ((Finset.range n).erase a))
    (nt.map some) ∅ hcomb_wf hwofds
  have hg1sub : SubN g.1.value (orPow ((Finset.range n).erase a)) := by
    rw [subN_iff]
    intro i hi
    rw [testBit_orPow]
    have hin : i < n := testBit_lt_of_lt hwg.1.2 hi
    have hia : i ≠ a := by
      intro hcontra
      rw [hcontra, ha1] at hi
      exact Bool.noConfusion hi
    simp [Finset.mem_erase, hia, Finset.mem_range, hin]
  have hg2C : SubN g.2.value
      (attribute_closure (comb_word n ((Finset.range n).erase a)) (nt.map some) ∅).value := by
    apply hclosed g (List.mem_map.mpr ⟨g, hg, rfl⟩) (by simp)
    exact subN_trans hg1sub hsubx.1
  show (attribute_closure (comb_word n ((Finset.range n).erase a)) (nt.map some) ∅).value =
    2 ^ n - 1
  apply Nat.eq_of_testBit_eq
  intro i
  rw [Nat.testBit_two_pow_sub_one]
  by_cases hin : i < n
  · rw [decide_eq_true hin]
    by_cases hia : i = a
    · subst hia
      exact (subN_iff.mp hg2C) i ha2
    · have hiS : (orPow ((Finset.range n).erase a)).testBit i = true := by
        rw [testBit_orPow]
        simp [Finset.mem_erase, hia, Finset.mem_range, hin]
      exact (subN_iff.mp hsubx.1) i hiS
  · rw [decide_eq_false hin]
    have hClt : (attribute_closure (comb_word n ((Finset.range n).erase a))
        (nt.map some) ∅).value < 2 ^ n := hsubx.2.1
    cases hb : (attribute_closure (comb_word n ((Finset.range n).erase a))
        (nt.map some) ∅).value.testBit i with
    | false => rfl
    | true => exact absurd (testBit_lt_of_lt hClt hb) hin

/-- Every minimal superkey of size below n is found by the size loop of
candidate_keys. -/
theorem minimal_superkey_mem_ck (n : Nat) (nt : List FD) (m : Finset Nat)
    (hm : m ⊆ Finset.range n) (hcard : m.card < n)
    (hsk : is_superkey (comb_word n m) nt = true)
    (hmin : ∀ t, t ⊂ m → is_superkey (comb_word n t) nt = false) :
    comb_word n m ∈ ck_loop n nt n := by
  apply mem_ck_loop_intro hcard ?_ hsk
  rw [mem_attribute_combinations]
  refine ⟨⟨m, hm, rfl, rfl⟩, ?_⟩
  intro w hw
  rcases mem_ck_loop_elim hw with ⟨j, hj, hwc, hwsk⟩
  rcases mem_attribute_combinations.mp hwc with ⟨⟨s, hs1, hs2, hweq⟩, _⟩
  cases hb : is_subset_of w (comb_word n m) with
  | false => rfl
  | true =>
    exfalso
    have hwlt : w.value < 2 ^ w.length := by
      rw [hweq]
      exact orPow_lt hs1
    have hsubval := (is_subset_of_iff hwlt).mp hb
    have hssm : s ⊆ m := by
      rw [hweq] at hsubval
      exact subN_orPow_iff.mp hsubval
    have hproper : s ⊂ m := by
      rw [Finset.ssubset_iff_subset_ne]
      refine ⟨hssm, ?_⟩
      intro hcontra
      rw [hcontra] at hs2
      omega
    have hfalse := hmin s hproper
    rw [hweq, hfalse] at hwsk
    exact Bool.noConfusion hwsk

/-- The triviality test of is_bcnf, (left AND right) == right, agrees with
value-level containment of the rhs in the lhs on well-formed words. -/
theorem bcnf_trivial_iff {n : Nat} {g : FD} (h1 : WFw n g.1) :
    ((g.1.and g.2).beq g.2 = true) ↔ SubN g.2.value g.1.value := by
  rw [beq_iff, and_value]
  have hand : g.1.value &&& g.2.value < 2 ^ g.1.length :=
    Nat.lt_of_le_of_lt Nat.and_le_left (by rw [h1.1]; exact h1.2)
  rw [Nat.mod_eq_of_lt hand]
  unfold SubN
  rw [Nat.and_comm]

/-- candidate_keys on a list with a head and a non-trivial part: the size
loop runs over the length of the head lhs. -/
theorem candidate_keys_of_head (F : List FD) (fd0 : FD) (h1 : F.head? = some fd0)
    (h2 : non_trivial F ≠ []) :
    candidate_keys F = some (ck_loop fd0.1.length (non_trivial F) fd0.1.length) := by
  simp only [candidate_keys, h1]
  rw [if_neg (by simpa using h2)]

/-! ### Claim theorems: C1, C2, C3, C4, C10 -/

/-- C1: the code violates the 3NF-implies-2NF ladder.  Evaluated at the
failing input F = [AB -> C, C -> A] over three attributes (A = bit 0):
the candidate keys are {AB, BC}, is_3nf accepts F because the rhs of every
non-trivial FD lies inside the prime-attribute union, but is_2nf rejects F
because the lhs C of C -> A is a proper subset of the key BC.  is_2nf
flags every partial dependency, with no exemption for a prime rhs, which
breaks the ladder the spec requires. -/
theorem C1_ladder_fails :
    is_3nf [((⟨3, 3⟩ : BinaryWord), (⟨3, 4⟩ : BinaryWord)), (⟨3, 4⟩, ⟨3, 1⟩)] = some true ∧
    is_2nf [((⟨3, 3⟩ : BinaryWord), (⟨3, 4⟩ : BinaryWord)), (⟨3, 4⟩, ⟨3, 1⟩)] = some false := by
  decide

/-- C2: drop_dependencies never returns the decomposition; evaluated at
the failing input [(01, 10)] over two attributes it raises TypeError
(none), because the loop reads right[i] and BinaryWord defines no getitem
method. -/
theorem C2_drop_dependencies_raises :
    drop_dependencies [(BinaryWord.init 2 1, BinaryWord.init 2 2)] = none := by decide

/-- C3 counterexample: an FD list with zero elements is not defined
behavior; both candidate_keys and sigma_plus_limited read fds[0] and raise
IndexError (none) instead of returning the all-attributes key. -/
theorem C3_empty_raises :
    candidate_keys ([] : List FD) = none ∧ sigma_plus_limited ([] : List FD) = none := by
  decide

/-- C3 amended: the defined degenerate case is a NONEMPTY FD list without
non-trivial FDs; candidate_keys then returns the all-attributes word as
the sole key and sigma_plus_limited returns that word bare, while an FD
list with zero elements raises IndexError in both functions. -/
theorem C3_all_trivial_sole_key (fds : List FD) (fd0 : FD)
    (h1 : fds.head? = some fd0) (h2 : non_trivial fds = []) :
    candidate_keys fds = some {fd0.1.ones} ∧
    sigma_plus_limited fds = some (SigmaResult.word fd0.1.ones) := by
  unfold candidate_keys sigma_plus_limited
  rw [h1, h2]
  simp

/-- Witness for C3: the one-FD list [(11, 01)] over two attributes is all
trivial; both functions return the all-ones word 11 as the sole key. -/
theorem C3_witness :
    candidate_keys [((⟨2, 3⟩ : BinaryWord), (⟨2, 1⟩ : BinaryWord))] =
      some {(⟨2, 3⟩ : BinaryWord).ones} ∧
    sigma_plus_limited [((⟨2, 3⟩ : BinaryWord), (⟨2, 1⟩ : BinaryWord))] =
      some (SigmaResult.word (⟨2, 3⟩ : BinaryWord).ones) :=
  C3_all_trivial_sole_key [((⟨2, 3⟩ : BinaryWord), (⟨2, 1⟩ : BinaryWord))]
    ((⟨2, 3⟩ : BinaryWord), (⟨2, 1⟩ : BinaryWord)) (by decide) (by decide)

/-- C4: the pruning never happens.  Evaluated at the failing input
F = [A -> BC] over three attributes: closure({A}) = 111 is all ones, so
the claim says {A} joins the pruning set and no FD with lhs {A,B} or
{A,C} is generated; but the source compares the bound method pop_count
itself (never called) with an int, which is always False, the pruning set
stays empty, and the returned set contains the FDs for the proper
supersets 011 and 101 of 001. -/
theorem C4_no_pruning :
    sigma_plus_limited [((⟨3, 1⟩ : BinaryWord), (⟨3, 6⟩ : BinaryWord))] =
      some (SigmaResult.fdset
        (sp_loop 3 [((⟨3, 1⟩ : BinaryWord), (⟨3, 6⟩ : BinaryWord))] 3).2) ∧
    ((⟨3, 3⟩, ⟨3, 7⟩) : FD) ∈
      (sp_loop 3 [((⟨3, 1⟩ : BinaryWord), (⟨3, 6⟩ : BinaryWord))] 3).2 ∧
    ((⟨3, 5⟩, ⟨3, 7⟩) : FD) ∈
      (sp_loop 3 [((⟨3, 1⟩ : BinaryWord), (⟨3, 6⟩ : BinaryWord))] 3).2 ∧
    is_proper_subset_of ⟨3, 1⟩ ⟨3, 3⟩ = true ∧
    (attribute_closure ⟨3, 1⟩ ([((⟨3, 1⟩ : BinaryWord), (⟨3, 6⟩ : BinaryWord))].map some)
      ∅).value = 2 ^ 3 - 1 := by
  exact ⟨rfl, by decide, by decide, by decide, by decide⟩

/-- C10: the constructor truncates any integer argument, negative
included, to its residue mod 2 ^ length instead of rejecting it, and every
word produced by the constructor or by AND, OR, XOR, complement, set_bit,
flip_bit, ones or zeroes has a value in [0, 2 ^ length) (values are Nat,
hence nonnegative). -/
theorem C10_constructor_truncates_and_range :
    (∀ (l : Nat) (v : Int),
      ((BinaryWord.init l v).value : Int) = v % (2 : Int) ^ l ∧
      (BinaryWord.init l v).value < 2 ^ (BinaryWord.init l v).length) ∧
    (∀ a b : BinaryWord, (a.and b).value < 2 ^ (a.and b).length) ∧
    (∀ a b : BinaryWord, (a.or b).value < 2 ^ (a.or b).length) ∧
    (∀ a b : BinaryWord, (a.xor b).value < 2 ^ (a.xor b).length) ∧
    (∀ w : BinaryWord, w.invert.value < 2 ^ w.invert.length) ∧
    (∀ w : BinaryWord,
      w.ones.value < 2 ^ w.ones.length ∧ w.zeroes.value < 2 ^ w.zeroes.length) ∧
    (∀ (w w2 : BinaryWord) (p b : Nat), w.set_bit p b = some w2 →
      w2.value < 2 ^ w2.length) ∧
    (∀ (w w2 : BinaryWord) (p : Nat), w.flip_bit p = some w2 →
      w2.value < 2 ^ w2.length) := by
  refine ⟨fun l v => ⟨init_value_int l v, init_value_lt l v⟩,
    fun a b => init_value_lt _ _, fun a b => init_value_lt _ _,
    fun a b => init_value_lt _ _, fun w => init_value_lt _ _,
    fun w => ⟨init_value_lt _ _, init_value_lt _ _⟩, ?_, ?_⟩
  · intro w w2 p b h
    unfold BinaryWord.set_bit at h
    split at h
    · split at h
      · exact Option.some.inj h ▸ init_value_lt _ _
      · exact absurd h (by simp)
    · exact absurd h (by simp)
  · intro w w2 p h
    unfold BinaryWord.flip_bit at h
    split at h
    · exact Option.some.inj h ▸ init_value_lt _ _
    · exact absurd h (by simp)

/-- C9: for attribute sets X and Y of length n with X contained in Y and
any FD list over n attributes, closure(X, F) is contained in
closure(Y, F): the closure operator is monotone in its starting set. -/
theorem C9_closure_monotone (n : Nat) (X Y : BinaryWord) (F : List FD)
    (hF : WFfds n F) (hX : WFw n X) (hY : WFw n Y)
    (hXY : is_subset_of X Y = true) :
    is_subset_of (attribute_closure X (F.map some) ∅)
      (attribute_closure Y (F.map some) ∅) = true := by
  have hofds := wfofds_of_map n F hF
  have hsubXY : SubN X.value Y.value :=
    (is_subset_of_iff (by rw [hX.1]; exact hX.2)).mp hXY
  have hYsub := attribute_closure_sub Y (F.map some) ∅ (by rw [hY.1]; exact hY.2)
  have hclosed := attribute_closure_closed n Y (F.map some) ∅ hY hofds
  have hle := attribute_closure_le n X (F.map some) ∅ _ hofds hclosed
    (subN_trans hsubXY hYsub.1)
  have hXsub := attribute_closure_sub X (F.map some) ∅ (by rw [hX.1]; exact hX.2)
  rw [is_subset_of_iff (by rw [hXsub.2.2]; exact hXsub.2.1)]
  exact hle

/-- Witness for C9 at F = [A -> B] over two attributes, X = {} and
Y = {A}: closure(X) = {} is contained in closure(Y) = {A,B}. -/
theorem C9_witness :
    WFfds 2 [((⟨2, 1⟩ : BinaryWord), (⟨2, 2⟩ : BinaryWord))] ∧
    WFw 2 ⟨2, 0⟩ ∧ WFw 2 ⟨2, 1⟩ ∧ is_subset_of ⟨2, 0⟩ ⟨2, 1⟩ = true ∧
    is_subset_of
      (attribute_closure ⟨2, 0⟩ ([((⟨2, 1⟩ : BinaryWord), (⟨2, 2⟩ : BinaryWord))].map some) ∅)
      (attribute_closure ⟨2, 1⟩ ([((⟨2, 1⟩ : BinaryWord), (⟨2, 2⟩ : BinaryWord))].map some) ∅) =
      true :=
  ⟨by decide, by decide, by decide, by decide,
   C9_closure_monotone 2 ⟨2, 0⟩ ⟨2, 1⟩ [((⟨2, 1⟩ : BinaryWord), (⟨2, 2⟩ : BinaryWord))]
     (by decide) (by decide) (by decide) (by decide)⟩

/-- C6: for every nonempty FD list F whose FDs all live over n attributes,
candidate_keys succeeds and every returned key is a superkey of F, and no
two distinct returned keys are in a subset relation. -/
theorem C6_candidate_keys_antichain (n : Nat) (F : List FD) (ks : Finset BinaryWord)
    (hne : F ≠ []) (hF : WFfds n F) (hks : candidate_keys F = some ks) :
    (∀ K ∈ ks, is_superkey K F = true) ∧
    (∀ K1 ∈ ks, ∀ K2 ∈ ks, K1 ≠ K2 → is_subset_of K1 K2 = false) := by
  rcases F with _ | ⟨fd0, rest⟩
  · exact absurd rfl hne
  simp only [candidate_keys, List.head?_cons] at hks
  have hfd0 := hF fd0 (by simp)
  have hlen0 : fd0.1.length = n := hfd0.1.1
  split at hks
  · -- no non-trivial FD: the single key is the all-ones word
    have hksval : ks = {fd0.1.ones} := (Option.some.inj hks).symm
    subst hksval
    constructor
    · intro K hK
      rw [Finset.mem_singleton] at hK
      subst hK
      rw [is_superkey_iff]
      have honesv : (fd0.1.ones).value = 2 ^ n - 1 := by rw [ones_value, hlen0]
      have honesl : (fd0.1.ones).length = n := by rw [ones_length, hlen0]
      have hone := Nat.one_le_two_pow (n := n)
      have honeswf : (fd0.1.ones).value < 2 ^ (fd0.1.ones).length := by
        rw [honesv, honesl]; omega
      have hsub := attribute_closure_sub fd0.1.ones ((fd0 :: rest).map some) ∅ honeswf
      have h1 := subN_le hsub.1
      have h2 := hsub.2.1
      rw [honesv] at h1
      rw [honesl] at h2
      rw [honesl]
      omega
    · intro K1 hK1 K2 hK2 hne12
      rw [Finset.mem_singleton] at hK1 hK2
      subst hK1
      subst hK2
      exact absurd rfl hne12
  · -- general branch: keys collected by the size loop
    have hksval : ks = ck_loop fd0.1.length (non_trivial (fd0 :: rest)) fd0.1.length :=
      (Option.some.inj hks).symm
    subst hksval
    rw [hlen0]
    constructor
    · intro K hK
      rcases mem_ck_loop_elim hK with ⟨j, _, hmem, hsk⟩
      rcases mem_attribute_combinations.mp hmem with ⟨⟨s, hs1, _, hkeq⟩, _⟩
      have hKwf : WFw n K := by
        rw [hkeq]
        exact ⟨rfl, orPow_lt hs1⟩
      rw [is_superkey_non_trivial n K (fd0 :: rest) hKwf hF]
      exact hsk
    · intro K1 hK1 K2 hK2 hne12
      cases hb : is_subset_of K1 K2 with
      | false => rfl
      | true =>
        exfalso
        rcases mem_ck_loop_elim hK1 with ⟨j1, _, hmem1, hsk1⟩
        rcases mem_ck_loop_elim hK2 with ⟨j2, _, hmem2, _⟩
        rcases mem_attribute_combinations.mp hmem1 with ⟨⟨s1, hs11, hs12, hk1eq⟩, _⟩
        rcases mem_attribute_combinations.mp hmem2 with ⟨⟨s2, _, hs22, hk2eq⟩, hex2⟩
        have hK1wf : K1.value < 2 ^ K1.length := by
          rw [hk1eq]
          exact orPow_lt hs11
        have hsubval : SubN K1.value K2.value := (is_subset_of_iff hK1wf).mp hb
        have hss : s1 ⊆ s2 := by
          rw [hk1eq, hk2eq] at hsubval
          exact subN_orPow_iff.mp hsubval
        have hcard : j1 ≤ j2 := by
          rw [← hs12, ← hs22]
          exact Finset.card_le_card hss
        rcases Nat.lt_or_ge j1 j2 with hlt | hge
        · have hK1in : K1 ∈ ck_loop n (non_trivial (fd0 :: rest)) j2 :=
            mem_ck_loop_intro hlt hmem1 hsk1
          have hfalse := hex2 K1 hK1in
          rw [hb] at hfalse
          exact Bool.noConfusion hfalse
        · have hj12 : j1 = j2 := Nat.le_antisymm hcard hge
          have hseq : s1 = s2 :=
            Finset.eq_of_subset_of_card_le hss (by rw [hs12, hs22, hj12])
          rw [hk1eq, hk2eq, hseq] at hne12
          exact hne12 rfl

/-- Witness for C6 at F = [A -> B] over two attributes: candidate_keys
returns the key set computed by the size loop, every key in it is a
superkey of F, and the keys are pairwise subset-incomparable. -/
theorem C6_witness :
    candidate_keys [((⟨2, 1⟩ : BinaryWord), (⟨2, 2⟩ : BinaryWord))] =
      some (ck_loop 2 (non_trivial [((⟨2, 1⟩ : BinaryWord), (⟨2, 2⟩ : BinaryWord))]) 2) ∧
    (∀ K ∈ ck_loop 2 (non_trivial [((⟨2, 1⟩ : BinaryWord), (⟨2, 2⟩ : BinaryWord))]) 2,
      is_superkey K [((⟨2, 1⟩ : BinaryWord), (⟨2, 2⟩ : BinaryWord))] = true) ∧
    (∀ K1 ∈ ck_loop 2 (non_trivial [((⟨2, 1⟩ : BinaryWord), (⟨2, 2⟩ : BinaryWord))]) 2,
      ∀ K2 ∈ ck_loop 2 (non_trivial [((⟨2, 1⟩ : BinaryWord), (⟨2, 2⟩ : BinaryWord))]) 2,
        K1 ≠ K2 → is_subset_of K1 K2 = false) := by
  refine ⟨rfl, ?_⟩
  exact C6_candidate_keys_antichain 2 [((⟨2, 1⟩ : BinaryWord), (⟨2, 2⟩ : BinaryWord))]
    (ck_loop 2 (non_trivial [((⟨2, 1⟩ : BinaryWord), (⟨2, 2⟩ : BinaryWord))]) 2)
    (by simp) (by decide) rfl

/-- C7: for every FD list over n attributes and every attribute set of
length n, the closure under F equals the closure under minimize_right(F):
the single-result right-minimized cover is closure-equivalent to its
input. -/
theorem C7_minimize_right_closure_eq (n : Nat) (F : List FD) (S : BinaryWord)
    (hF : WFfds n F) (hS : WFw n S) :
    attribute_closure S (F.map some) ∅ =
      attribute_closure S ((minimize_right F).map some) ∅ := by
  have hnt : WFfds n (non_trivial F) := wf_non_trivial n F hF
  have hmaster := minimize_right_loop_master n (non_trivial F) hnt
    ((non_trivial F).map some).length 0 ((non_trivial F).map some)
    (by omega) (sel_refl _) (fun j fd hj _ => absurd hj (by omega))
  have hwfloop : WFofds n (minimize_right_loop ((non_trivial F).map some).length ((non_trivial F).map some) 0) :=
    sel_wfofds hnt hmaster.1
  have hwfres : WFofds n ((minimize_right F).map some) := by
    intro g hg
    unfold minimize_right at hg
    rw [mem_filterMap_map] at hg
    exact hwfloop g hg
  have heqres : attribute_closure S ((minimize_right F).map some) ∅ =
      attribute_closure S (minimize_right_loop ((non_trivial F).map some).length ((non_trivial F).map some) 0) ∅ := by
    apply attribute_closure_congr n S _ _ ∅ ∅ hS hwfres hwfloop
    intro fd
    unfold minimize_right
    rw [mem_filterMap_map]
  rw [closure_non_trivial_eq n S F hS hF, heqres, hmaster.2.1 S hS]

/-- Witness for C7 at F = [A -> B] over two attributes and S = {A}: the
closure of {A} under F equals its closure under minimize_right(F). -/
theorem C7_witness :
    attribute_closure ⟨2, 1⟩ ([((⟨2, 1⟩ : BinaryWord), (⟨2, 2⟩ : BinaryWord))].map some) ∅ =
      attribute_closure ⟨2, 1⟩
        ((minimize_right [((⟨2, 1⟩ : BinaryWord), (⟨2, 2⟩ : BinaryWord))]).map some) ∅ :=
  C7_minimize_right_closure_eq 2 [((⟨2, 1⟩ : BinaryWord), (⟨2, 2⟩ : BinaryWord))] ⟨2, 1⟩
    (by decide) (by decide)

/-- C5 counterexample: on the duplicated input [(A -> B), (A -> B)] over
two attributes both copies survive minimize_right (the redundancy test
excludes every value-equal copy at once, so neither copy sees the other),
and removing the FD at index 0 changes no closure: the four length-2
attribute sets all close to the same word with and without it.  So the
claim fails as stated for every FD list. -/
theorem C5_duplicates_removable :
    minimize_right [((⟨2, 1⟩ : BinaryWord), (⟨2, 2⟩ : BinaryWord)),
        ((⟨2, 1⟩ : BinaryWord), (⟨2, 2⟩ : BinaryWord))] =
      [((⟨2, 1⟩ : BinaryWord), (⟨2, 2⟩ : BinaryWord)),
       ((⟨2, 1⟩ : BinaryWord), (⟨2, 2⟩ : BinaryWord))] ∧
    (attribute_closure ⟨2, 0⟩
        ([((⟨2, 1⟩ : BinaryWord), (⟨2, 2⟩ : BinaryWord)),
          ((⟨2, 1⟩ : BinaryWord), (⟨2, 2⟩ : BinaryWord))].map some) ∅ =
      attribute_closure ⟨2, 0⟩
        (([((⟨2, 1⟩ : BinaryWord), (⟨2, 2⟩ : BinaryWord)),
          ((⟨2, 1⟩ : BinaryWord), (⟨2, 2⟩ : BinaryWord))].eraseIdx 0).map some) ∅) ∧
    (attribute_closure ⟨2, 1⟩
        ([((⟨2, 1⟩ : BinaryWord), (⟨2, 2⟩ : BinaryWord)),
          ((⟨2, 1⟩ : BinaryWord), (⟨2, 2⟩ : BinaryWord))].map some) ∅ =
      attribute_closure ⟨2, 1⟩
        (([((⟨2, 1⟩ : BinaryWord), (⟨2, 2⟩ : BinaryWord)),
          ((⟨2, 1⟩ : BinaryWord), (⟨2, 2⟩ : BinaryWord))].eraseIdx 0).map some) ∅) ∧
    (attribute_closure ⟨2, 2⟩
        ([((⟨2, 1⟩ : BinaryWord), (⟨2, 2⟩ : BinaryWord)),
          ((⟨2, 1⟩ : BinaryWord), (⟨2, 2⟩ : BinaryWord))].map some) ∅ =
      attribute_closure ⟨2, 2⟩
        (([((⟨2, 1⟩ : BinaryWord), (⟨2, 2⟩ : BinaryWord)),
          ((⟨2, 1⟩ : BinaryWord), (⟨2, 2⟩ : BinaryWord))].eraseIdx 0).map some) ∅) ∧
    (attribute_closure ⟨2, 3⟩
        ([((⟨2, 1⟩ : BinaryWord), (⟨2, 2⟩ : BinaryWord)),
          ((⟨2, 1⟩ : BinaryWord), (⟨2, 2⟩ : BinaryWord))].map some) ∅ =
      attribute_closure ⟨2, 3⟩
        (([((⟨2, 1⟩ : BinaryWord), (⟨2, 2⟩ : BinaryWord)),
          ((⟨2, 1⟩ : BinaryWord), (⟨2, 2⟩ : BinaryWord))].eraseIdx 0).map some) ∅) := by
  exact ⟨by decide, by decide, by decide, by decide, by decide⟩

/-- C5 amended: for every FD list F over n attributes whose non-trivial
FDs are pairwise distinct, no FD in minimize_right(F) can be removed
without changing the closure of some attribute set (its own lhs) under
the remaining returned FDs. -/
theorem C5_minimize_right_no_redundancy (n : Nat) (F : List FD)
    (hF : WFfds n F) (hnodup : (non_trivial F).Nodup)
    (k : Nat) (hk : k < (minimize_right F).length) :
    attribute_closure ((minimize_right F).get ⟨k, hk⟩).1
      ((minimize_right F).map some) ∅ ≠
    attribute_closure ((minimize_right F).get ⟨k, hk⟩).1
      (((minimize_right F).eraseIdx k).map some) ∅ := by
  have hnt : WFfds n (non_trivial F) := wf_non_trivial n F hF
  have hmaster := minimize_right_loop_master n (non_trivial F) hnt
    ((non_trivial F).map some).length 0 ((non_trivial F).map some)
    (by omega) (sel_refl _) (fun j fd hj _ => absurd hj (by omega))
  have hR : minimize_right F =
      (minimize_right_loop ((non_trivial F).map some).length ((non_trivial F).map some) 0).filterMap id := rfl
  have hfdR : (minimize_right F).get ⟨k, hk⟩ ∈ minimize_right F :=
    List.get_mem (minimize_right F) k hk
  have hfdL : some ((minimize_right F).get ⟨k, hk⟩) ∈
      minimize_right_loop ((non_trivial F).map some).length ((non_trivial F).map some) 0 := by
    rw [← mem_filterMap_id, ← hR]
    exact hfdR
  have hsubl : List.Sublist (minimize_right F) (non_trivial F) := by
    rw [hR]
    exact sel_filterMap_sublist _ _ hmaster.1
  have hRnodup : (minimize_right F).Nodup := hnodup.sublist hsubl
  rcases List.mem_iff_getElem?.mp hfdL with ⟨j, hj⟩
  have hInvfd := hmaster.2.2 j _ hj
  have hwfL : WFofds n (minimize_right_loop ((non_trivial F).map some).length ((non_trivial F).map some) 0) :=
    sel_wfofds hnt hmaster.1
  have hwffd := hwfL _ hfdL
  have hwfR : WFofds n ((minimize_right F).map some) := by
    intro g hg
    rw [hR, mem_filterMap_map] at hg
    exact hwfL g hg
  have hwfE : WFofds n (((minimize_right F).eraseIdx k).map some) := by
    intro g hg
    rw [List.mem_map] at hg
    rcases hg with ⟨g2, hg2, hg2e⟩
    have hgg : g2 = g := Option.some.inj hg2e
    subst hgg
    exact hwfR g2 (List.mem_map.mpr
      ⟨g2, (List.eraseIdx_sublist (minimize_right F) k).subset hg2, rfl⟩)
  have hcongr : attribute_closure ((minimize_right F).get ⟨k, hk⟩).1
      (((minimize_right F).eraseIdx k).map some) ∅ =
      attribute_closure ((minimize_right F).get ⟨k, hk⟩).1
        (minimize_right_loop ((non_trivial F).map some).length ((non_trivial F).map some) 0)
        {(minimize_right F).get ⟨k, hk⟩} := by
    apply attribute_closure_congr n _ _ _ ∅ _ hwffd.1 hwfE hwfL
    intro g
    constructor
    · rintro ⟨hg, _⟩
      rw [List.mem_map] at hg
      rcases hg with ⟨g2, hg2, hg2e⟩
      have hgg : g2 = g := Option.some.inj hg2e
      subst hgg
      have hmemerase := (nodup_eraseIdx_mem (minimize_right F) k hk hRnodup g2).mp hg2
      refine ⟨?_, by simpa using hmemerase.2⟩
      rw [← mem_filterMap_id, ← hR]
      exact hmemerase.1
    · rintro ⟨hgL, hgex⟩
      have hgR : g ∈ minimize_right F := by
        rw [hR]
        exact (mem_filterMap_id _ g).mpr hgL
      refine ⟨List.mem_map.mpr ⟨g, ?_, rfl⟩, by simp⟩
      exact (nodup_eraseIdx_mem (minimize_right F) k hk hRnodup g).mpr
        ⟨hgR, by simpa using hgex⟩
  have hfd2lt : ((minimize_right F).get ⟨k, hk⟩).2.value <
      2 ^ ((minimize_right F).get ⟨k, hk⟩).2.length := by
    rw [hwffd.2.1]
    exact hwffd.2.2
  have hnotsub : ¬ SubN ((minimize_right F).get ⟨k, hk⟩).2.value
      (attribute_closure ((minimize_right F).get ⟨k, hk⟩).1
        (minimize_right_loop ((non_trivial F).map some).length ((non_trivial F).map some) 0)
        {(minimize_right F).get ⟨k, hk⟩}).value := by
    intro hcontra
    have htrue := (is_subset_of_iff hfd2lt).mpr hcontra
    rw [hInvfd] at htrue
    exact Bool.noConfusion htrue
  have hsub : SubN ((minimize_right F).get ⟨k, hk⟩).2.value
      (attribute_closure ((minimize_right F).get ⟨k, hk⟩).1
        ((minimize_right F).map some) ∅).value := by
    apply attribute_closure_closed n _ ((minimize_right F).map some) ∅ hwffd.1 hwfR _
      (List.mem_map.mpr ⟨_, hfdR, rfl⟩) (by simp)
    exact (attribute_closure_sub _ ((minimize_right F).map some) ∅
      (by rw [hwffd.1.1]; exact hwffd.1.2)).1
  intro heq
  rw [heq, hcongr] at hsub
  exact hnotsub hsub

/-- Witness for C5 at F = [A -> B] over two attributes: the single
returned FD cannot be removed without changing the closure of its lhs. -/
theorem C5_witness :
    WFfds 2 [((⟨2, 1⟩ : BinaryWord), (⟨2, 2⟩ : BinaryWord))] ∧
    (non_trivial [((⟨2, 1⟩ : BinaryWord), (⟨2, 2⟩ : BinaryWord))]).Nodup ∧
    0 < (minimize_right [((⟨2, 1⟩ : BinaryWord), (⟨2, 2⟩ : BinaryWord))]).length ∧
    attribute_closure
        ((minimize_right [((⟨2, 1⟩ : BinaryWord), (⟨2, 2⟩ : BinaryWord))]).get
          ⟨0, by decide⟩).1
        ((minimize_right [((⟨2, 1⟩ : BinaryWord), (⟨2, 2⟩ : BinaryWord))]).map some) ∅ ≠
      attribute_closure
        ((minimize_right [((⟨2, 1⟩ : BinaryWord), (⟨2, 2⟩ : BinaryWord))]).get
          ⟨0, by decide⟩).1
        (((minimize_right [((⟨2, 1⟩ : BinaryWord), (⟨2, 2⟩ : BinaryWord))]).eraseIdx 0).map
          some) ∅ :=
  ⟨by decide, by decide, by decide,
   C5_minimize_right_no_redundancy 2 [((⟨2, 1⟩ : BinaryWord), (⟨2, 2⟩ : BinaryWord))]
     (by decide) (by decide) 0 (by decide)⟩

/-- C8: for every nonempty FD list over n attributes, if is_bcnf accepts
it then is_3nf accepts it (and in particular is_3nf completes without
raising).  For each non-trivial FD the BCNF premise makes the lhs a
superkey, a minimal superkey inside it has size below n and is therefore
collected by the candidate-key loop, and that key witnesses the
no-transitive-dependency condition of is_3nf. -/
theorem C8_bcnf_implies_3nf (n : Nat) (F : List FD) (hne : F ≠ []) (hF : WFfds n F)
    (hbcnf : is_bcnf n F = true) : is_3nf F = some true := by
  rcases F with _ | ⟨fd0, rest⟩
  · exact absurd rfl hne
  have hfd0 := hF fd0 (by simp)
  have hlen0 : fd0.1.length = n := hfd0.1.1
  by_cases hnt : non_trivial (fd0 :: rest) = []
  · -- every FD is trivial: the sole key is the all-ones word
    have hck : candidate_keys (fd0 :: rest) = some {fd0.1.ones} := by
      simp only [candidate_keys, List.head?_cons]
      rw [if_pos (by rw [hnt]; rfl)]
    simp only [is_3nf, hck]
    rw [if_neg (by simp)]
    congr 1
    rw [List.all_eq_true]
    intro fd hfd
    have htriv : is_subset_of fd.2 fd.1 = true := by
      have h2 := List.filter_eq_nil_iff.mp hnt fd hfd
      simpa using h2
    simp [htriv]
  · -- some FD is non-trivial
    have hck := candidate_keys_of_head (fd0 :: rest) fd0 (by simp) hnt
    rw [hlen0] at hck
    have hwfnt : WFfds n (non_trivial (fd0 :: rest)) := wf_non_trivial n _ hF
    have hkey : ∀ fd ∈ (fd0 :: rest), is_subset_of fd.2 fd.1 = false →
        ∃ K ∈ ck_loop n (non_trivial (fd0 :: rest)) n, is_subset_of K fd.1 = true := by
      intro fd hfd hfdnt
      have hwfd := hF fd hfd
      have hbc : (!(!((fd.1.and fd.2).beq fd.2) &&
          !(is_superkey fd.1 (fd0 :: rest)))) = true :=
        List.all_eq_true.mp hbcnf fd hfd
      have hsk : is_superkey fd.1 (fd0 :: rest) = true := by
        by_contra hc
        have hcf : is_superkey fd.1 (fd0 :: rest) = false := by
          cases h : is_superkey fd.1 (fd0 :: rest)
          · rfl
          · exact absurd h hc
        have htrivb : (fd.1.and fd.2).beq fd.2 = false := by
          cases h : (fd.1.and fd.2).beq fd.2
          · rfl
          · exfalso
            have hsubn := (bcnf_trivial_iff hwfd.1).mp h
            have h3 := (is_subset_of_iff
              (by rw [hwfd.2.1]; exact hwfd.2.2)).mpr hsubn
            rw [hfdnt] at h3
            exact Bool.noConfusion h3
        rw [htrivb, hcf] at hbc
        simp at hbc
      rw [is_superkey_non_trivial n fd.1 (fd0 :: rest) hwfd.1 hF] at hsk
      have hcwb : comb_word n (bits fd.1) = fd.1 := comb_word_bits hwfd.1
      have hskb : is_superkey (comb_word n (bits fd.1)) (non_trivial (fd0 :: rest)) = true := by
        rw [hcwb]
        exact hsk
      have hbitsub : bits fd.1 ⊆ Finset.range n := by
        have h4 := bits_subset_range fd.1
        rw [hwfd.1.1] at h4
        exact h4
      rcases exists_minimal_superkey n (non_trivial (fd0 :: rest)) (bits fd.1)
        hbitsub hskb with ⟨m, hm1, hm2, hm3⟩
      have hmsub : m ⊆ Finset.range n := fun x hx => hbitsub (hm1 hx)
      have hmcard : m.card < n := by
        by_contra hc
        push_neg at hc
        have hcard_le : m.card ≤ n := by
          have h5 := Finset.card_le_card hmsub
          simpa using h5
        have hmeq : m = Finset.range n :=
          Finset.eq_of_subset_of_card_le hmsub
            (by rw [Finset.card_range]; omega)
        cases hntne : non_trivial (fd0 :: rest) with
        | nil => exact hnt hntne
        | cons g nt2 =>
          have hgnt : g ∈ non_trivial (fd0 :: rest) := by rw [hntne]; simp
          have hgnontriv : is_subset_of g.2 g.1 = false := (mem_non_trivial.mp hgnt).2
          rcases erase_superkey n (non_trivial (fd0 :: rest)) hwfnt g hgnt hgnontriv with
            ⟨a, han, hask⟩
          have herase_ss : (Finset.range n).erase a ⊂ m := by
            rw [hmeq]
            exact Finset.erase_ssubset (Finset.mem_range.mpr han)
          have h6 := hm3 _ herase_ss
          rw [h6] at hask
          exact Bool.noConfusion hask
      have hKmem := minimal_superkey_mem_ck n (non_trivial (fd0 :: rest)) m hmsub hmcard hm2 hm3
      refine ⟨comb_word n m, hKmem, ?_⟩
      have hKlt : (comb_word n m).value < 2 ^ (comb_word n m).length := orPow_lt hmsub
      rw [is_subset_of_iff hKlt]
      show SubN (orPow m) fd.1.value
      rw [← orPow_bits hwfd.1]
      exact subN_orPow_iff.mpr hm1
    have hksne : ck_loop n (non_trivial (fd0 :: rest)) n ≠ ∅ := by
      cases hntne2 : non_trivial (fd0 :: rest) with
      | nil => exact absurd hntne2 hnt
      | cons g nt2 =>
        have hgnt : g ∈ non_trivial (fd0 :: rest) := by rw [hntne2]; simp
        have hgF : g ∈ (fd0 :: rest) := (mem_non_trivial.mp hgnt).1
        have hgnontriv : is_subset_of g.2 g.1 = false := (mem_non_trivial.mp hgnt).2
        rcases hkey g hgF hgnontriv with ⟨K, hK, _⟩
        intro hcontra
        rw [hntne2, hcontra] at hK
        exact absurd hK (Finset.not_mem_empty K)
    simp only [is_3nf, hck]
    rw [if_neg hksne]
    congr 1
    rw [List.all_eq_true]
    intro fd hfd
    by_cases htriv : is_subset_of fd.2 fd.1 = true
    · simp [htriv]
    · have htrivf : is_subset_of fd.2 fd.1 = false := by
        cases h : is_subset_of fd.2 fd.1
        · rfl
        · exact absurd h htriv
      rcases hkey fd hfd htrivf with ⟨K, hKmem, hKsub⟩
      have hex : ∃ K ∈ ck_loop n (non_trivial (fd0 :: rest)) n,
          is_subset_of K fd.1 = true := ⟨K, hKmem, hKsub⟩
      simp [htrivf, hex]

/-- Witness for C8 at F = [A -> B, B -> A] over two attributes: is_bcnf
accepts it and is_3nf accepts it. -/
theorem C8_witness :
    is_bcnf 2 [((⟨2, 1⟩ : BinaryWord), (⟨2, 2⟩ : BinaryWord)),
      ((⟨2, 2⟩ : BinaryWord), (⟨2, 1⟩ : BinaryWord))] = true ∧
    is_3nf [((⟨2, 1⟩ : BinaryWord), (⟨2, 2⟩ : BinaryWord)),
      ((⟨2, 2⟩ : BinaryWord), (⟨2, 1⟩ : BinaryWord))] = some true :=
  ⟨by decide,
   C8_bcnf_implies_3nf 2
     [((⟨2, 1⟩ : BinaryWord), (⟨2, 2⟩ : BinaryWord)),
      ((⟨2, 2⟩ : BinaryWord), (⟨2, 1⟩ : BinaryWord))]
     (by simp) (by decide) (by decide)⟩

/-- Witness for C10: the constructor applied to the negative value -3 at
length 3 masks it to 5, and set_bit succeeds in range with a masked
result. -/
theorem C10_witness :
    ((BinaryWord.init 3 (-3)).value : Int) = (-3 : Int) % (2 : Int) ^ 3 ∧
    (BinaryWord.init 3 (-3)).value < 2 ^ (BinaryWord.init 3 (-3)).length ∧
    BinaryWord.set_bit ⟨3, 5⟩ 1 1 = some (BinaryWord.init 3 7) ∧
    (BinaryWord.init 3 7).value < 2 ^ (BinaryWord.init 3 7).length :=
  ⟨(C10_constructor_truncates_and_range.1 3 (-3)).1,
   (C10_constructor_truncates_and_range.1 3 (-3)).2,
   by decide,
   C10_constructor_truncates_and_range.2.2.2.2.2.2.1 ⟨3, 5⟩ (BinaryWord.init 3 7) 1 1
     (by decide)⟩

end FDSampleRush
